import Mathlib

/-!
Quadtree image compression: a shallow embedding of `qt_comp.c`.

The development follows the C source function by function.

* C `float` and `double` values are rationals; every arithmetic operation is
  followed by the rounding of its type (`f32`, `f64`: round to nearest, ties to
  even, 24 and 53 significant bits).  The exponent range is not modelled: every
  value the program computes lies between `2^(-22)` and `2^39`.
* A `png_pixel**` matrix is a list of row slots; a slot that was never assigned
  and a cell that was never written are `none`.
* A `quad_node` is a record of its `value` and its four child pointers.  A child
  pointer is `NULL`, a freshly allocated child, or the node itself (the only
  three things the program ever stores there).
* Recursions that the C code does not bound carry a fuel argument; running out
  of fuel is the error `Err.fuel`.
-/

namespace QtComp

/-! ## Floating point -/

/-- Round a rational to the nearest integer, ties going to the even one. -/
def roundEven (x : ℚ) : ℤ :=
  let f := ⌊x⌋
  if x - f < 1 / 2 then f
  else if 1 / 2 < x - f then f + 1
  else if f % 2 = 0 then f else f + 1

/-- Round a rational to a binary floating-point value with `prec` significant
bits (round to nearest, ties to even; unbounded exponent). -/
def flp (prec : ℕ) (x : ℚ) : ℚ :=
  if x = 0 then 0
  else
    let u : ℚ := (2 : ℚ) ^ (Int.log 2 |x| - ((prec : ℤ) - 1))
    (roundEven (x / u) : ℚ) * u

/-- Rounding to C `float` (IEEE-754 binary32). -/
def f32 (x : ℚ) : ℚ := flp 24 x

/-- Rounding to C `double` (IEEE-754 binary64). -/
def f64 (x : ℚ) : ℚ := flp 53 x

/-- The C library call `pow(d, 2)` on an `int` argument converted to `double`. -/
def c_pow2 (d : ℤ) : ℚ := f64 ((d : ℚ) ^ 2)

/-- The C conversion `(png_byte) x` of a floating-point value: truncation toward
zero.  C leaves the conversion of a value outside `0..255` undefined; the model
reduces it to 8 bits. -/
def c_to_byte (x : ℚ) : Fin 256 :=
  ⟨(if 0 ≤ x then ⌊x⌋ else ⌈x⌉).toNat % 256, Nat.mod_lt _ (by norm_num)⟩

/-! ## Pixels and colour metrics -/

/-- The struct `png_pixel`: four `png_byte` channels, in the declaration order
of the source (red, blue, green, alpha). -/
structure png_pixel where
  red : Fin 256
  blue : Fin 256
  green : Fin 256
  alpha : Fin 256
deriving DecidableEq, Repr

instance : Inhabited png_pixel := ⟨⟨0, 0, 0, 0⟩⟩

/-- The accumulation loop `for n < count: acc += list_pixels[n].channel` of
`PixelAverage`, on a `float` accumulator starting at `0.0`. -/
def channel_sum (channel : png_pixel → Fin 256) (list_pixels : List png_pixel)
    (count : ℕ) : ℚ :=
  (list_pixels.take count).foldl (fun acc p => f32 (acc + ((channel p : ℕ) : ℚ))) 0

/-- The function `PixelAverage` of the source: each channel is summed in a
`float`, divided by `(float) count` and converted to `png_byte`. -/
def PixelAverage (list_pixels : List png_pixel) (count : ℕ) : png_pixel :=
  let avg_red := channel_sum png_pixel.red list_pixels count
  let avg_green := channel_sum png_pixel.green list_pixels count
  let avg_blue := channel_sum png_pixel.blue list_pixels count
  let avg_alpha := channel_sum png_pixel.alpha list_pixels count
  { red := c_to_byte (f32 (avg_red / f32 (count : ℚ)))
    blue := c_to_byte (f32 (avg_blue / f32 (count : ℚ)))
    green := c_to_byte (f32 (avg_green / f32 (count : ℚ)))
    alpha := c_to_byte (f32 (avg_alpha / f32 (count : ℚ))) }

/-- The `int` difference `pix1.channel - pix2.channel` after integer promotion. -/
def channel_diff (a b : Fin 256) : ℤ := ((a : ℕ) : ℤ) - ((b : ℕ) : ℤ)

/-- The function `PixelColorDistance` of the source.  Each `distance += pow(..)`
adds in `double` and stores to the `float` accumulator; `max_distance` is
`pow(2 * 256, 2) * 4` stored to a `float`. -/
def PixelColorDistance (pix1 pix2 : png_pixel) : ℚ :=
  let distance : ℚ := 0
  let distance := f32 (f64 (distance + c_pow2 (channel_diff pix1.red pix2.red)))
  let distance := f32 (f64 (distance + c_pow2 (channel_diff pix1.green pix2.green)))
  let distance := f32 (f64 (distance + c_pow2 (channel_diff pix1.blue pix2.blue)))
  let distance := f32 (f64 (distance + c_pow2 (channel_diff pix1.alpha pix2.alpha)))
  let max_distance := f32 (f64 (c_pow2 (2 * 256) * 4))
  f32 (distance / max_distance)

/-- The function `PixelVariance` of the source: the distances to `average_pix`
are summed in a `float` and the sum is divided by `(float) count`. -/
def PixelVariance (average_pix : png_pixel) (list_pixels : List png_pixel)
    (count : ℕ) : ℚ :=
  let variance := (list_pixels.take count).foldl
    (fun acc p => f32 (acc + PixelColorDistance average_pix p)) 0
  f32 (variance / f32 (count : ℚ))

/-! ## Errors and loops -/

/-- The ways an execution can go wrong.  `fuel` stands for a recursion that did
not return within the given fuel; the others are the memory faults of the C
program: a dereferenced `NULL` pointer, an access past the end of an allocated
block, a dereferenced row pointer that was never assigned, and a read of a cell
that was never written. -/
inductive Err where
  | fuel
  | null_deref
  | out_of_bounds
  | wild_pointer
  | uninitialised
deriving DecidableEq, Repr

/-- The C loop `for (int i = 0; i < n; i++) body`, threading the state. -/
def c_for {σ : Type} : ℕ → (ℕ → σ → Except Err σ) → σ → Except Err σ
  | 0, _, s => .ok s
  | n + 1, body, s =>
    match c_for n body s with
    | .error e => .error e
    | .ok s1 => body n s1

/-! ## Pixel matrices -/

/-- One row of a pixel matrix: the block `malloc(width * sizeof(png_pixel))`.
A cell that was never written is `none`. -/
abbrev pixel_row := List (Option png_pixel)

/-- A pixel matrix `png_pixel**`: the block of row pointers.  A row pointer that
was never assigned is `none`. -/
abbrev pixel_mat := List (Option pixel_row)

/-- The read `mat[y][x]`. -/
def mat_read (mat : pixel_mat) (y x : ℕ) : Except Err png_pixel :=
  match mat[y]? with
  | none => .error .out_of_bounds
  | some none => .error .wild_pointer
  | some (some row) =>
    match row[x]? with
    | none => .error .out_of_bounds
    | some none => .error .uninitialised
    | some (some p) => .ok p

/-- The write `mat[y][x] = p`. -/
def mat_write (mat : pixel_mat) (y x : ℕ) (p : png_pixel) : Except Err pixel_mat :=
  match mat[y]? with
  | none => .error .out_of_bounds
  | some none => .error .wild_pointer
  | some (some row) =>
    if x < row.length then .ok (mat.set y (some (row.set x (some p))))
    else .error .out_of_bounds

/-- The function `image_alloc` of the source: a block of `height` row pointers,
then the loop `for i < width: mat[i] = malloc(width * sizeof(png_pixel))`. -/
def image_alloc (width height : ℕ) : Except Err pixel_mat :=
  c_for width
    (fun i mat =>
      if i < mat.length then .ok (mat.set i (some (List.replicate width none)))
      else .error .out_of_bounds)
    (List.replicate height none)

/-- The four sub-matrices `sub_imgs[0..3]` of `SplitImgIn4`. -/
structure sub_imgs where
  s0 : pixel_mat
  s1 : pixel_mat
  s2 : pixel_mat
  s3 : pixel_mat
deriving DecidableEq, Repr

/-- The body of the inner loop of `SplitImgIn4` at column `x` and row `y`. -/
def split_body (mat : pixel_mat) (width height x y : ℕ) (s : sub_imgs) :
    Except Err sub_imgs := do
  -- Top left
  let p0 ← mat_read mat y x
  let s0 ← mat_write s.s0 y x p0
  -- Top right
  let p1 ← mat_read mat y (x + width / 2)
  let s1 ← mat_write s.s1 y x p1
  -- Bottom left
  let p2 ← mat_read mat (y + height / 2) x
  let s2 ← mat_write s.s2 y x p2
  -- Bottom right
  let p3 ← mat_read mat (y + height / 2) (x + width / 2)
  let s3 ← mat_write s.s3 y x p3
  pure ⟨s0, s1, s2, s3⟩

/-- The function `SplitImgIn4` of the source. -/
def SplitImgIn4 (mat : pixel_mat) (width height : ℕ) : Except Err sub_imgs := do
  let s0 ← image_alloc (width / 2) (height / 2)
  let s1 ← image_alloc (width / 2) (height / 2)
  let s2 ← image_alloc (width / 2) (height / 2)
  let s3 ← image_alloc (width / 2) (height / 2)
  c_for (width / 2)
    (fun x s => c_for (height / 2) (fun y s => split_body mat width height x y s) s)
    ⟨s0, s1, s2, s3⟩

/-! ## Quadtree nodes -/

mutual
/-- The struct `quad_node`: its `value` pointer (`none` for `NULL`, otherwise
the pixel it points to) and the four child pointers `q1..q4`.  The `parent`
field is written by `qn_alloc` and never read, and is left out. -/
inductive quad_node where
  | mk (value : Option png_pixel) (q1 q2 q3 q4 : qn_ptr)
/-- A value of a child pointer field: `NULL`, the address of the node that
holds the field, or the address of a node owned by this field. -/
inductive qn_ptr where
  | NULL
  | self
  | child (n : quad_node)
end

/-- The test `ptr == NULL`. -/
def qn_ptr.isNull : qn_ptr → Bool
  | .NULL => true
  | _ => false

/-- Field `value` of a node. -/
def quad_node.value : quad_node → Option png_pixel
  | .mk v _ _ _ _ => v

/-- Field `q1` of a node. -/
def quad_node.q1 : quad_node → qn_ptr
  | .mk _ a _ _ _ => a

/-- Field `q2` of a node. -/
def quad_node.q2 : quad_node → qn_ptr
  | .mk _ _ b _ _ => b

/-- Field `q3` of a node. -/
def quad_node.q3 : quad_node → qn_ptr
  | .mk _ _ _ c _ => c

/-- Field `q4` of a node. -/
def quad_node.q4 : quad_node → qn_ptr
  | .mk _ _ _ _ d => d

/-- The struct `quad_tree`: the root node. -/
structure quad_tree where
  root : quad_node

/-- The function `qn_alloc` of the source, for a node with value `val`.  The
child pointers are not assigned by the source, which leaves their content to the
allocator.  The model assumes that they read as `NULL`, as they do in a block
that `malloc` carves from fresh zeroed memory: the source does not guarantee it,
and every `NULL` test of the program relies on it. -/
def qn_alloc (val : Option png_pixel) : quad_node :=
  .mk val .NULL .NULL .NULL .NULL

/-- The function `RecMatToNode` of the source.  The result carries the number
of times the warning "Width or height was not a power of 2." was printed.  The
leaf keeps the address `&mat[0][0]`; the model reads the cell at once. -/
def RecMatToNode : ℕ → pixel_mat → ℕ → ℕ → Except Err (quad_node × ℕ)
  | 0, _, _, _ => .error .fuel
  | fuel + 1, mat, width, height =>
    let warned : ℕ := if width = 0 ∨ height = 0 then 1 else 0
    if width = 1 ∧ height = 1 then
      match mat_read mat 0 0 with
      | .error e => .error e
      | .ok p => .ok (qn_alloc (some p), warned)
    else
      -- Subdivide the image into 2x2 pieces
      match SplitImgIn4 mat width height with
      | .error e => .error e
      | .ok sub =>
        match RecMatToNode fuel sub.s0 (width / 2) (height / 2) with
        | .error e => .error e
        | .ok (c1, w1) =>
          match RecMatToNode fuel sub.s1 (width / 2) (height / 2) with
          | .error e => .error e
          | .ok (c2, w2) =>
            match RecMatToNode fuel sub.s2 (width / 2) (height / 2) with
            | .error e => .error e
            | .ok (c3, w3) =>
              match RecMatToNode fuel sub.s3 (width / 2) (height / 2) with
              | .error e => .error e
              | .ok (c4, w4) =>
                .ok (.mk none (.child c1) (.child c2) (.child c3) (.child c4),
                  warned + w1 + w2 + w3 + w4)

/-- The function `MatrixToQuad` of the source.  The node `root_` it allocates
is only stored in the `parent` field of the root, which is never read. -/
def MatrixToQuad (fuel : ℕ) (mat : pixel_mat) (width height : ℕ) :
    Except Err (quad_tree × ℕ) :=
  match RecMatToNode fuel mat width height with
  | .error e => .error e
  | .ok (root, w) => .ok (⟨root⟩, w)

/-- A recursive call `f(state, ptr)` on the node a child pointer designates; the
result is the new state and the new contents of the node designated.  A `NULL`
pointer is dereferenced by the callee at once. -/
def call_q1 {σ : Type} (f : σ → quad_node → Except Err (σ × quad_node)) (s : σ)
    (node : quad_node) : Except Err (σ × quad_node) :=
  match node with
  | .mk v a b c d =>
    match a with
    | .NULL => .error .null_deref
    | .self => f s node
    | .child n =>
      match f s n with
      | .error e => .error e
      | .ok (s1, n1) => .ok (s1, .mk v (.child n1) b c d)

/-- As `call_q1`, for the pointer `q2`. -/
def call_q2 {σ : Type} (f : σ → quad_node → Except Err (σ × quad_node)) (s : σ)
    (node : quad_node) : Except Err (σ × quad_node) :=
  match node with
  | .mk v a b c d =>
    match b with
    | .NULL => .error .null_deref
    | .self => f s node
    | .child n =>
      match f s n with
      | .error e => .error e
      | .ok (s1, n1) => .ok (s1, .mk v a (.child n1) c d)

/-- As `call_q1`, for the pointer `q3`. -/
def call_q3 {σ : Type} (f : σ → quad_node → Except Err (σ × quad_node)) (s : σ)
    (node : quad_node) : Except Err (σ × quad_node) :=
  match node with
  | .mk v a b c d =>
    match c with
    | .NULL => .error .null_deref
    | .self => f s node
    | .child n =>
      match f s n with
      | .error e => .error e
      | .ok (s1, n1) => .ok (s1, .mk v a b (.child n1) d)

/-- As `call_q1`, for the pointer `q4`. -/
def call_q4 {σ : Type} (f : σ → quad_node → Except Err (σ × quad_node)) (s : σ)
    (node : quad_node) : Except Err (σ × quad_node) :=
  match node with
  | .mk v a b c d =>
    match d with
    | .NULL => .error .null_deref
    | .self => f s node
    | .child n =>
      match f s n with
      | .error e => .error e
      | .ok (s1, n1) => .ok (s1, .mk v a b c (.child n1))

/-- The function `RecNodeToMat` of the source.  It returns the matrix written
and the node as the call leaves it. -/
def RecNodeToMat : ℕ → pixel_mat → quad_node → ℕ → ℕ → ℕ → ℕ →
    Except Err (pixel_mat × quad_node)
  | 0, _, _, _, _, _, _ => .error .fuel
  | fuel + 1, mat, node, x, y, width, height =>
    -- If node is at the pixel level, draw and end recursion.
    if width = 1 ∧ height = 1 then
      match node.value with
      | none => .error .null_deref
      | some p =>
        match mat_write mat y x p with
        | .error e => .error e
        | .ok mat1 => .ok (mat1, node)
    else
      -- If leaf ends, keep the same color.
      let node :=
        if node.q1.isNull ∧ node.q2.isNull ∧ node.q3.isNull ∧ node.q4.isNull then
          quad_node.mk node.value .self .self .self .self
        else node
      -- Top-left
      match call_q1 (fun m n => RecNodeToMat fuel m n x y (width / 2) (height / 2))
          mat node with
      | .error e => .error e
      | .ok (mat, node) =>
        -- Top-right
        match call_q2
            (fun m n => RecNodeToMat fuel m n (x + width / 2) y (width / 2) (height / 2))
            mat node with
        | .error e => .error e
        | .ok (mat, node) =>
          -- Bottom-left
          match call_q3
              (fun m n => RecNodeToMat fuel m n x (y + height / 2) (width / 2) (height / 2))
              mat node with
          | .error e => .error e
          | .ok (mat, node) =>
            -- Bottom-right
            call_q4
              (fun m n =>
                RecNodeToMat fuel m n (x + width / 2) (y + height / 2) (width / 2) (height / 2))
              mat node

/-- The function `QuadToMatrix` of the source; it also returns the tree as
`RecNodeToMat` leaves it. -/
def QuadToMatrix (fuel : ℕ) (qt : quad_tree) (width height : ℕ) :
    Except Err (pixel_mat × quad_tree) :=
  match image_alloc width height with
  | .error e => .error e
  | .ok mat =>
    match RecNodeToMat fuel mat qt.root 0 0 width height with
    | .error e => .error e
    | .ok (mat1, root) => .ok (mat1, ⟨root⟩)

/-- The read `ptr -> value` through a child pointer of `node`; `none` when the
pointer is `NULL`. -/
def ptr_value (node : quad_node) (ptr : qn_ptr) : Option (Option png_pixel) :=
  match ptr with
  | .NULL => none
  | .self => some node.value
  | .child n => some n.value

/-- The function `PruneBranches` of the source, returning the node as the call
leaves it. -/
def PruneBranches : ℕ → quad_node → ℚ → Except Err quad_node
  | 0, _, _ => .error .fuel
  | fuel + 1, node, compressionThreshold =>
    if !node.q1.isNull ∧ !node.q2.isNull ∧ !node.q3.isNull ∧ !node.q4.isNull then
      let prune := fun (_ : Unit) (n : quad_node) =>
        match PruneBranches fuel n compressionThreshold with
        | .error e => Except.error e
        | .ok n1 => Except.ok ((), n1)
      -- Compress leaves, then move upwards
      match call_q1 prune () node with
      | .error e => .error e
      | .ok (_, node) =>
        match call_q2 prune () node with
        | .error e => .error e
        | .ok (_, node) =>
          match call_q3 prune () node with
          | .error e => .error e
          | .ok (_, node) =>
            match call_q4 prune () node with
            | .error e => .error e
            | .ok (_, node) =>
              -- If a leaf was not compressed, don't compress.
              match ptr_value node node.q1 with
              | none => .error .null_deref
              | some none => .ok node
              | some (some p1) =>
                match ptr_value node node.q2 with
                | none => .error .null_deref
                | some none => .ok node
                | some (some p2) =>
                  match ptr_value node node.q3 with
                  | none => .error .null_deref
                  | some none => .ok node
                  | some (some p3) =>
                    match ptr_value node node.q4 with
                    | none => .error .null_deref
                    | some none => .ok node
                    | some (some p4) =>
                      -- Get pixels
                      let list_pixels := [p1, p2, p3, p4]
                      let avg := PixelAverage list_pixels 4
                      -- If 4 squares are of similar color, combine them.
                      if PixelVariance avg list_pixels 4 < compressionThreshold then
                        -- Cut the tree
                        .ok (.mk (some avg) .NULL .NULL .NULL .NULL)
                      else .ok node
    else .ok node

/-- A quadtree in the sense of the specification: a leaf holding a pixel, or an
internal node with four subtrees. -/
inductive QTree where
  | leaf (p : png_pixel)
  | node (a b c d : QTree)
deriving DecidableEq, Repr

/-- The node structure that represents a tree: a leaf has a value and `NULL`
children, an internal node has no value and owns its four children. -/
def QTree.toNode : QTree → quad_node
  | .leaf p => .mk (some p) .NULL .NULL .NULL .NULL
  | .node a b c d =>
    .mk none (.child a.toNode) (.child b.toNode) (.child c.toNode) (.child d.toNode)

/-- A node structure is well formed when every node reachable from it is a leaf
(a value, no children) or internal (no value, four owned children). -/
inductive WellFormed : quad_node → Prop where
  | leaf (p : png_pixel) : WellFormed (.mk (some p) .NULL .NULL .NULL .NULL)
  | internal (a b c d : quad_node) :
      WellFormed a → WellFormed b → WellFormed c → WellFormed d →
      WellFormed (.mk none (.child a) (.child b) (.child c) (.child d))

/-- Depth of a tree: number of edges on the longest path from the root. -/
def QTree.depth : QTree → ℕ
  | .leaf _ => 0
  | .node a b c d => max (max a.depth b.depth) (max c.depth d.depth) + 1

/-- Number of nodes of a tree. -/
def QTree.count : QTree → ℕ
  | .leaf _ => 1
  | .node a b c d => a.count + b.count + c.count + d.count + 1

/-- Number of leaves of a tree. -/
def QTree.leaves : QTree → ℕ
  | .leaf _ => 1
  | .node a b c d => a.leaves + b.leaves + c.leaves + d.leaves

/-- The pixel of a leaf, if the tree is one. -/
def QTree.leafValue : QTree → Option png_pixel
  | .leaf p => some p
  | .node _ _ _ _ => none

/-- The merge decision of `PruneBranches` on four leaf values. -/
def merge_four (t : ℚ) (p1 p2 p3 p4 : png_pixel) : QTree :=
  if PixelVariance (PixelAverage [p1, p2, p3, p4] 4) [p1, p2, p3, p4] 4 < t then
    .leaf (PixelAverage [p1, p2, p3, p4] 4)
  else .node (.leaf p1) (.leaf p2) (.leaf p3) (.leaf p4)

/-- The result of pruning, as a function on trees: children first, then the
merge decision when all four pruned children are leaves. -/
def QTree.prune (t : ℚ) : QTree → QTree
  | .leaf p => .leaf p
  | .node a b c d =>
    match a.prune t, b.prune t, c.prune t, d.prune t with
    | .leaf p1, .leaf p2, .leaf p3, .leaf p4 => merge_four t p1 p2 p3 p4
    | a1, b1, c1, d1 => .node a1 b1 c1 d1

/-- The node a child pointer owns, if any. -/
def qn_ptr.owned : qn_ptr → Option quad_node
  | .child n => some n
  | _ => none

/-- The child of a node in quadrant `i` (0 for `q1` up to 3 for `q4`). -/
def quad_node.sub (n : quad_node) (i : Fin 4) : Option quad_node :=
  match i with
  | 0 => n.q1.owned
  | 1 => n.q2.owned
  | 2 => n.q3.owned
  | 3 => n.q4.owned

/-- The node at a position: the path of quadrant choices from the root. -/
def quad_node.at : quad_node → List (Fin 4) → Option quad_node
  | n, [] => some n
  | n, i :: path =>
    match n.sub i with
    | none => none
    | some c => c.at path

/-- A node is a leaf: it has a value and no children. -/
def quad_node.isLeaf : quad_node → Bool
  | .mk (some _) .NULL .NULL .NULL .NULL => true
  | _ => false

/-- A node is internal: it has no value and four owned children. -/
def quad_node.isInternal : quad_node → Bool
  | .mk none (.child _) (.child _) (.child _) (.child _) => true
  | _ => false

mutual
/-- Number of nodes reachable from a node through owned children. -/
def quad_node.count : quad_node → ℕ
  | .mk _ a b c d => a.count + b.count + c.count + d.count + 1
/-- Number of nodes below a child pointer. -/
def qn_ptr.count : qn_ptr → ℕ
  | .child n => n.count
  | _ => 0
end

mutual
/-- Depth of a node structure: the longest chain of owned children. -/
def quad_node.depth : quad_node → ℕ
  | .mk _ a b c d => max (max a.depth b.depth) (max c.depth d.depth)
/-- Depth below a child pointer. -/
def qn_ptr.depth : qn_ptr → ℕ
  | .child n => n.depth + 1
  | _ => 0
end

/-- The subtree of a tree in quadrant `i`. -/
def QTree.sub : QTree → Fin 4 → Option QTree
  | .leaf _, _ => none
  | .node a _ _ _, 0 => some a
  | .node _ b _ _, 1 => some b
  | .node _ _ c _, 2 => some c
  | .node _ _ _ d, 3 => some d

/-- The subtree at a position. -/
def QTree.at : QTree → List (Fin 4) → Option QTree
  | T, [] => some T
  | T, i :: path =>
    match T.sub i with
    | none => none
    | some c => c.at path

/-! ## Views of a matrix -/

/-- The cell `(y, x)` of a matrix: `none` when no such cell is allocated,
`some none` when it is allocated and was never written. -/
def mat_cell (mat : pixel_mat) (y x : ℕ) : Option (Option png_pixel) :=
  match mat[y]? with
  | some (some row) => row[x]?
  | _ => none

/-- The allocation shape of a matrix: for each row slot, the length of the row
it points to, if it was assigned. -/
def mat_shape (mat : pixel_mat) : List (Option ℕ) :=
  mat.map (Option.map List.length)

/-- The pixel stored at `(y, x)`, with a default outside the written cells. -/
def mat_px (mat : pixel_mat) (y x : ℕ) : png_pixel :=
  match mat_cell mat y x with
  | some (some p) => p
  | _ => default

/-- The matrix of `height` rows of `width` written cells holding `f y x`. -/
def grid_of (width height : ℕ) (f : ℕ → ℕ → png_pixel) : pixel_mat :=
  (List.range height).map (fun y => some ((List.range width).map (fun x => some (f y x))))

/-- A matrix is a `width x height` grid: exactly `height` rows, each assigned
and holding exactly `width` written pixels. -/
def is_grid (width height : ℕ) (mat : pixel_mat) : Bool :=
  mat.length == height &&
    mat.all (fun r =>
      match r with
      | none => false
      | some row => row.length == width && row.all Option.isSome)

/-- The tree `RecMatToNode` builds from the `2^k x 2^k` pixels `f`. -/
def build_tree : ℕ → (ℕ → ℕ → png_pixel) → QTree
  | 0, f => .leaf (f 0 0)
  | k + 1, f =>
    .node (build_tree k f) (build_tree k (fun y x => f y (x + 2 ^ k)))
      (build_tree k (fun y x => f (y + 2 ^ k) x))
      (build_tree k (fun y x => f (y + 2 ^ k) (x + 2 ^ k)))

/-- The pixel a tree assigns to the cell `(y, x)` of a `2^k x 2^k` region. -/
def QTree.px : ℕ → QTree → ℕ → ℕ → png_pixel
  | _, .leaf p, _, _ => p
  | 0, .node _ _ _ _, _, _ => default
  | k + 1, .node a b c d, y, x =>
    if y < 2 ^ k then
      if x < 2 ^ k then a.px k y x else b.px k y (x - 2 ^ k)
    else
      if x < 2 ^ k then c.px k (y - 2 ^ k) x else d.px k (y - 2 ^ k) (x - 2 ^ k)

/-- The node structure `RecNodeToMat` leaves behind after drawing a tree over a
`2^k x 2^k` region: a leaf that covers more than one pixel has been linked to
itself in all four child pointers. -/
def QTree.rendered : ℕ → QTree → quad_node
  | 0, T => T.toNode
  | _ + 1, .leaf p => .mk (some p) .self .self .self .self
  | k + 1, .node a b c d =>
    .mk none (.child (a.rendered k)) (.child (b.rendered k)) (.child (c.rendered k))
      (.child (d.rendered k))

/-- The matrix `out1` is `out` with the `n x n` square at column `x`, row `y`
overwritten by the pixels `g`, and nothing else changed. -/
def painted (out out1 : pixel_mat) (x y n : ℕ) (g : ℕ → ℕ → png_pixel) : Prop :=
  mat_shape out1 = mat_shape out ∧
    ∀ r c, mat_cell out1 r c
      = if y ≤ r ∧ r < y + n ∧ x ≤ c ∧ c < x + n then some (some (g (r - y) (c - x)))
        else mat_cell out r c

/-- Every cell of the `n x n` square at column `x`, row `y` is allocated. -/
def allocated (out : pixel_mat) (x y n : ℕ) : Prop :=
  ∀ r c, y ≤ r → r < y + n → x ≤ c → c < x + n → (mat_cell out r c).isSome = true

/-- A grid of width 1 and height 2. -/
def example_grid_1x2 : pixel_mat :=
  [some [some ⟨1, 2, 3, 4⟩], some [some ⟨5, 6, 7, 8⟩]]

/-- The raw squared Euclidean distance of two pixels over the four channels. -/
def raw_distance (a b : png_pixel) : ℤ :=
  channel_diff a.red b.red ^ 2 + channel_diff a.green b.green ^ 2
    + channel_diff a.blue b.blue ^ 2 + channel_diff a.alpha b.alpha ^ 2

/-! ## Auxiliary definitions of the proofs -/

/-- The exact (integer) sum of one channel over a list of pixels. -/
def channel_total (channel : png_pixel → Fin 256) (l : List png_pixel) : ℕ :=
  (l.map (fun p => ((channel p : Fin 256) : ℕ))).sum

/-- The state of `image_alloc` after `i` rounds of its loop. -/
def alloc_state (width height i : ℕ) : pixel_mat :=
  (List.range height).map
    (fun j => if j < i then some (List.replicate width none) else none)

/-- Loop invariant of `SplitImgIn4` for one sub-matrix: it is an `m x m` block
and its cells in the columns before `i`, and in column `i` above row `j`, hold
the pixels `g`. -/
def sub_inv (m : ℕ) (g : ℕ → ℕ → png_pixel) (i j : ℕ) (s : pixel_mat) : Prop :=
  mat_shape s = List.replicate m (some m) ∧
    ∀ y x, y < m → x < m → (x < i ∨ (x = i ∧ y < j)) → mat_cell s y x = some (some (g y x))

/-- Loop invariant of `SplitImgIn4` for the four sub-matrices of a matrix whose
pixels are `f`. -/
def split_inv (m : ℕ) (f : ℕ → ℕ → png_pixel) (i j : ℕ) (s : sub_imgs) : Prop :=
  sub_inv m f i j s.s0 ∧ sub_inv m (fun y x => f y (x + m)) i j s.s1 ∧
    sub_inv m (fun y x => f (y + m) x) i j s.s2 ∧
    sub_inv m (fun y x => f (y + m) (x + m)) i j s.s3

/-- The pixel `(10, 20, 30, 255)` of the end-to-end example. -/
def example_pixel : png_pixel := { red := 10, green := 20, blue := 30, alpha := 255 }

/-- A 2x2 grid of four different pixels. -/
def example_grid_2x2 : pixel_mat :=
  [some [some ⟨1, 2, 3, 4⟩, some ⟨5, 6, 7, 8⟩],
    some [some ⟨9, 10, 11, 12⟩, some ⟨13, 14, 15, 16⟩]]

/-- A tree of depth 2 with one uniform quadrant. -/
def example_tree : QTree :=
  .node (.node (.leaf ⟨1, 1, 1, 1⟩) (.leaf ⟨1, 1, 1, 1⟩) (.leaf ⟨1, 1, 1, 1⟩) (.leaf ⟨1, 1, 1, 1⟩))
    (.leaf ⟨0, 0, 0, 0⟩) (.leaf ⟨255, 255, 255, 255⟩) (.leaf ⟨9, 9, 9, 9⟩)

/-- An internal node with four leaf children, as a tree. -/
def four_leaves (p1 p2 p3 p4 : png_pixel) : QTree :=
  .node (.leaf p1) (.leaf p2) (.leaf p3) (.leaf p4)

/-- A 3x3 matrix of unwritten cells. -/
def example_blank_3x3 : pixel_mat :=
  [some [none, none, none], some [none, none, none], some [none, none, none]]

/-- A 2x2 grid that is the top-left quadrant of `example_grid_4x4`. -/
def example_grid_4x4 : pixel_mat :=
  grid_of 4 4 (fun y x => ⟨Fin.ofNat y, Fin.ofNat x, 0, 255⟩)

/-- A tree is perfect of depth `k`: every leaf is `k` edges below the root. -/
def QTree.perfect : ℕ → QTree → Bool
  | 0, .leaf _ => true
  | k + 1, .node a b c d => a.perfect k && b.perfect k && c.perfect k && d.perfect k
  | _, _ => false

mutual
/-- Number of nodes without children reachable from a node through owned
children. -/
def quad_node.leaves : quad_node → ℕ
  | .mk _ a b c d =>
    if a.isNull && b.isNull && c.isNull && d.isNull then 1
    else a.leaves + b.leaves + c.leaves + d.leaves
/-- Number of leaves below a child pointer. -/
def qn_ptr.leaves : qn_ptr → ℕ
  | .child n => n.leaves
  | _ => 0
end

/-- The tree `RecMatToNode` builds in `L` levels of halving from the pixels `f`
of a matrix of width and height `w`: at each level the quadrants start at
offset `w / 2`. -/
def build_gen : ℕ → ℕ → (ℕ → ℕ → png_pixel) → QTree
  | 0, _, f => .leaf (f 0 0)
  | L + 1, w, f =>
    .node (build_gen L (w / 2) f) (build_gen L (w / 2) (fun y x => f y (x + w / 2)))
      (build_gen L (w / 2) (fun y x => f (y + w / 2) x))
      (build_gen L (w / 2) (fun y x => f (y + w / 2) (x + w / 2)))

/-- The row (or column) offsets that `L` levels of halving of a width `w`
reach: 0 after no halving, and after one more halving the offsets of the half
width, either as they are or moved by `w / 2`. -/
def is_coord : ℕ → ℕ → ℕ → Bool
  | 0, _, r => r == 0
  | L + 1, w, r => if r < w / 2 then is_coord L (w / 2) r else is_coord L (w / 2) (r - w / 2)

/-- The cell `(r, c)` of a matrix has been written. -/
def cell_written (mat : pixel_mat) (r c : ℕ) : Bool :=
  match mat_cell mat r c with
  | some (some _) => true
  | _ => false

/-- The written cells among the rows and columns `0 .. n - 1` of a matrix. -/
def written_cells (n : ℕ) (mat : pixel_mat) : Finset (ℕ × ℕ) :=
  (Finset.range n ×ˢ Finset.range n).filter (fun rc => cell_written mat rc.1 rc.2 = true)

/-- The matrix `out1` is `out` with, in the square at column `x`, row `y`, the
cells whose row and column offsets are reached by `L` halvings of `w`
overwritten by the pixels `g`, and nothing else changed. -/
def sparse_painted (out out1 : pixel_mat) (x y L w : ℕ) (g : ℕ → ℕ → png_pixel) : Prop :=
  mat_shape out1 = mat_shape out ∧
    ∀ r c, mat_cell out1 r c
      = if y ≤ r ∧ x ≤ c ∧ is_coord L w (r - y) = true ∧ is_coord L w (c - x) = true then
          some (some (g (r - y) (c - x)))
        else mat_cell out r c

/-- A 3x3 grid of nine different pixels. -/
def example_grid_3x3 : pixel_mat :=
  grid_of 3 3 (fun y x => ⟨Fin.ofNat y, Fin.ofNat x, 7, 255⟩)

/-! ## Lemmas on rounding -/

theorem roundEven_intCast (n : ℤ) : roundEven (n : ℚ) = n := by
  simp [roundEven]

/-- A value `m * 2^j` whose integer significand `m` fits in `prec` bits is a
floating-point number: rounding leaves it unchanged. -/
theorem flp_exact (prec : ℕ) (m j : ℤ) (hm : |m| < 2 ^ prec) :
    flp prec ((m : ℚ) * (2 : ℚ) ^ j) = (m : ℚ) * (2 : ℚ) ^ j := by
  by_cases hm0 : m = 0
  · subst hm0; simp [flp]
  have h2 : (0 : ℚ) < 2 := by norm_num
  have hx0 : (m : ℚ) * (2 : ℚ) ^ j ≠ 0 := by
    have : (2 : ℚ) ^ j ≠ 0 := (zpow_pos h2 j).ne'
    simp [hm0, this]
  unfold flp
  rw [if_neg hx0]
  set e := Int.log 2 |(m : ℚ) * (2 : ℚ) ^ j| with he
  have hxpos : 0 < |(m : ℚ) * (2 : ℚ) ^ j| := abs_pos.mpr hx0
  have hlow : ((2 : ℕ) : ℚ) ^ e ≤ |(m : ℚ) * (2 : ℚ) ^ j| := Int.zpow_log_le_self (by norm_num) hxpos
  have habs : |(m : ℚ) * (2 : ℚ) ^ j| = (|m| : ℤ) * (2 : ℚ) ^ j := by
    rw [abs_mul, abs_of_pos (zpow_pos h2 j)]; simp
  have hlt : |(m : ℚ) * (2 : ℚ) ^ j| < (2 : ℚ) ^ ((prec : ℤ) + j) := by
    rw [habs, zpow_add₀ (by norm_num : (2 : ℚ) ≠ 0)]
    apply mul_lt_mul_of_pos_right _ (zpow_pos h2 j)
    have : ((|m| : ℤ) : ℚ) < ((2 ^ prec : ℤ) : ℚ) := by exact_mod_cast hm
    simpa using this
  have hcast : ((2 : ℕ) : ℚ) = 2 := by norm_num
  rw [hcast] at hlow
  have hpow : (2 : ℚ) ^ e < (2 : ℚ) ^ ((prec : ℤ) + j) := lt_of_le_of_lt hlow hlt
  have hej : e < (prec : ℤ) + j := (zpow_lt_zpow_iff_right₀ (by norm_num : (1 : ℚ) < 2)).mp hpow
  obtain ⟨d, hd⟩ : ∃ d : ℕ, (d : ℤ) = j - (e - ((prec : ℤ) - 1)) := by
    refine ⟨(j - (e - ((prec : ℤ) - 1))).toNat, ?_⟩
    rw [Int.toNat_of_nonneg]; omega
  have hj : j = (e - ((prec : ℤ) - 1)) + d := by omega
  have hu : (2 : ℚ) ^ (e - ((prec : ℤ) - 1)) ≠ 0 := (zpow_pos h2 _).ne'
  have hdiv : (m : ℚ) * (2 : ℚ) ^ j / (2 : ℚ) ^ (e - ((prec : ℤ) - 1))
      = ((m * 2 ^ d : ℤ) : ℚ) := by
    rw [hj, zpow_add₀ (by norm_num : (2 : ℚ) ≠ 0)]
    field_simp
    ring
  simp only []
  rw [hdiv, roundEven_intCast, hj, zpow_add₀ (by norm_num : (2 : ℚ) ≠ 0)]
  push_cast
  rw [zpow_natCast]
  ring

theorem f32_intCast (n : ℤ) (h : |n| < 2 ^ 24) : f32 (n : ℚ) = n := by
  have := flp_exact 24 n 0 h
  simpa [f32] using this

theorem f64_intCast (n : ℤ) (h : |n| < 2 ^ 53) : f64 (n : ℚ) = n := by
  have := flp_exact 53 n 0 h
  simpa [f64] using this

theorem f32_natCast (n : ℕ) (h : n < 2 ^ 24) : f32 (n : ℚ) = n := by
  have := f32_intCast (n : ℤ) (by rw [abs_of_nonneg (by positivity)]; exact_mod_cast h)
  simpa using this

/-- Dividing a 24-bit integer by a power of two is exact in a `float`. -/
theorem f32_int_div_two_pow (n : ℤ) (k : ℕ) (h : |n| < 2 ^ 24) :
    f32 ((n : ℚ) / 2 ^ k) = (n : ℚ) / 2 ^ k := by
  have := flp_exact 24 n (-(k : ℤ)) h
  simpa [f32, zpow_neg, div_eq_mul_inv] using this

theorem channel_diff_sq_le (a b : Fin 256) : (channel_diff a b) ^ 2 ≤ 65025 := by
  have ha := a.isLt
  have hb := b.isLt
  unfold channel_diff
  nlinarith

theorem c_pow2_channel_diff (a b : Fin 256) :
    c_pow2 (channel_diff a b) = ((channel_diff a b ^ 2 : ℤ) : ℚ) := by
  have h := channel_diff_sq_le a b
  have h0 : 0 ≤ channel_diff a b ^ 2 := by positivity
  have := f64_intCast (channel_diff a b ^ 2) (by rw [abs_of_nonneg h0]; omega)
  unfold c_pow2
  push_cast at this ⊢
  exact this

theorem raw_distance_nonneg (a b : png_pixel) : 0 ≤ raw_distance a b := by
  unfold raw_distance; positivity

theorem raw_distance_le (a b : png_pixel) : raw_distance a b ≤ 260100 := by
  have h1 := channel_diff_sq_le a.red b.red
  have h2 := channel_diff_sq_le a.green b.green
  have h3 := channel_diff_sq_le a.blue b.blue
  have h4 := channel_diff_sq_le a.alpha b.alpha
  unfold raw_distance; omega

theorem f32_f64_small (n : ℤ) (h0 : 0 ≤ n) (h : n ≤ 1048576) :
    f32 (f64 (n : ℚ)) = n := by
  rw [f64_intCast n (by rw [abs_of_nonneg h0]; omega),
    f32_intCast n (by rw [abs_of_nonneg h0]; omega)]

theorem PixelColorDistance_eq (a b : png_pixel) :
    PixelColorDistance a b = (raw_distance a b : ℚ) / 1048576 := by
  have h1 := channel_diff_sq_le a.red b.red
  have h2 := channel_diff_sq_le a.green b.green
  have h3 := channel_diff_sq_le a.blue b.blue
  have h4 := channel_diff_sq_le a.alpha b.alpha
  have p1 : 0 ≤ channel_diff a.red b.red ^ 2 := by positivity
  have p2 : 0 ≤ channel_diff a.green b.green ^ 2 := by positivity
  have p3 : 0 ≤ channel_diff a.blue b.blue ^ 2 := by positivity
  have p4 : 0 ≤ channel_diff a.alpha b.alpha ^ 2 := by positivity
  have hmax : f32 (f64 (c_pow2 (2 * 256) * 4)) = 1048576 := by
    have e1 : c_pow2 (2 * 256) = ((262144 : ℤ) : ℚ) := by
      unfold c_pow2
      have := f64_intCast 262144 (by norm_num)
      norm_num at this ⊢
      exact this
    rw [e1]
    have := f32_f64_small 1048576 (by norm_num) (by norm_num)
    norm_num at this ⊢
    exact this
  unfold PixelColorDistance
  simp only [hmax, c_pow2_channel_diff, zero_add]
  rw [f32_f64_small _ p1 (by omega)]
  rw [← Int.cast_add, f32_f64_small _ (by omega) (by omega)]
  rw [← Int.cast_add, f32_f64_small _ (by omega) (by omega)]
  rw [← Int.cast_add, f32_f64_small _ (by omega) (by omega)]
  have := f32_int_div_two_pow (raw_distance a b) 20
    (by rw [abs_of_nonneg (raw_distance_nonneg a b)]; have := raw_distance_le a b; omega)
  norm_num at this
  unfold raw_distance at this ⊢
  exact this

/-! ## Lemmas on `PixelAverage` -/

theorem channel_total_le (channel : png_pixel → Fin 256) (l : List png_pixel) :
    channel_total channel l ≤ 255 * l.length := by
  induction l with
  | nil => simp [channel_total]
  | cons p l ih =>
    have := (channel p).isLt
    simp only [channel_total, List.map_cons, List.sum_cons, List.length_cons] at ih ⊢
    omega

theorem f32_natCast_le (n : ℕ) (h : n ≤ 2 ^ 24) : f32 (n : ℚ) = n := by
  rcases Nat.lt_or_ge n (2 ^ 24) with h1 | h1
  · exact f32_natCast n h1
  · have hn : n = 2 ^ 24 := le_antisymm h h1
    have := flp_exact 24 1 24 (by norm_num)
    subst hn
    norm_num [f32] at this ⊢
    exact this

theorem foldl_f32_exact (channel : png_pixel → Fin 256) (l : List png_pixel) (a : ℕ)
    (h : a + channel_total channel l ≤ 2 ^ 24) :
    l.foldl (fun acc p => f32 (acc + ((channel p : ℕ) : ℚ))) (a : ℚ)
      = ((a + channel_total channel l : ℕ) : ℚ) := by
  induction l generalizing a with
  | nil => simp [channel_total]
  | cons p l ih =>
    simp only [channel_total, List.map_cons, List.sum_cons] at h
    have h1 : f32 ((a : ℚ) + ((channel p : ℕ) : ℚ)) = ((a + (channel p : ℕ) : ℕ) : ℚ) := by
      rw [← Nat.cast_add]
      exact f32_natCast_le _ (by omega)
    rw [List.foldl_cons, h1, ih (a + (channel p : ℕ)) (by simp only [channel_total]; omega)]
    simp only [channel_total, List.map_cons, List.sum_cons]
    congr 1
    omega

theorem channel_sum_exact (channel : png_pixel → Fin 256) (l : List png_pixel) (count : ℕ)
    (h : 255 * count ≤ 2 ^ 24) :
    channel_sum channel l count = (channel_total channel (l.take count) : ℚ) := by
  have hb := channel_total_le channel (l.take count)
  have hl : (l.take count).length ≤ count := by simp [List.length_take]
  have := foldl_f32_exact channel (l.take count) 0 (by nlinarith)
  unfold channel_sum
  simpa using this

theorem le_roundEven (n : ℤ) (y : ℚ) (h : (n : ℚ) ≤ y) : n ≤ roundEven y := by
  have hf : n ≤ ⌊y⌋ := Int.le_floor.mpr h
  unfold roundEven
  simp only []
  split_ifs <;> omega

theorem roundEven_lt (b : ℤ) (y : ℚ) (h : y < (b : ℚ) - 1 / 2) : roundEven y < b := by
  have hfl : (⌊y⌋ : ℚ) ≤ y := Int.floor_le y
  have hf : ⌊y⌋ < b := by
    have : ((⌊y⌋ : ℤ) : ℚ) < (b : ℚ) := by linarith
    exact_mod_cast this
  unfold roundEven
  simp only []
  split_ifs with h1 h2 h3
  · exact hf
  · have : ((⌊y⌋ : ℤ) : ℚ) + 1 < (b : ℚ) := by linarith
    exact_mod_cast this
  · exact hf
  · have h4 : y - ⌊y⌋ = 1 / 2 := le_antisymm (not_lt.mp h2) (not_lt.mp h1)
    have : ((⌊y⌋ : ℤ) : ℚ) + 1 < (b : ℚ) := by linarith
    exact_mod_cast this

/-- The `float` quotient of two integers below `2^24`, truncated, is the integer
quotient: rounding never carries the quotient up to the next integer. -/
theorem floor_f32_div (s c : ℕ) (hc : 1 ≤ c) (hs : s < 2 ^ 24) :
    ⌊f32 ((s : ℚ) / (c : ℚ))⌋ = ((s / c : ℕ) : ℤ) := by
  have hcq : (0 : ℚ) < c := by exact_mod_cast hc
  obtain ⟨r, hr⟩ : ∃ r, r = s % c := ⟨_, rfl⟩
  obtain ⟨q, hq⟩ : ∃ q, q = s / c := ⟨_, rfl⟩
  have hdm : c * q + r = s := by rw [hr, hq]; exact Nat.div_add_mod s c
  have hrc : r < c := by rw [hr]; exact Nat.mod_lt _ hc
  rw [← hq]
  have hqs : q ≤ s := by rw [hq]; exact Nat.div_le_self s c
  by_cases hr0 : r = 0
  · have hx : (s : ℚ) / (c : ℚ) = (q : ℚ) := by
      rw [div_eq_iff hcq.ne']
      rw [hr0] at hdm
      rw [← hdm]; push_cast; ring
    rw [hx, f32_natCast q (by omega)]
    simp
  · have hspos : 0 < s := by omega
    have hx0 : (s : ℚ) / (c : ℚ) ≠ 0 := by
      have : (0 : ℚ) < s := by exact_mod_cast hspos
      positivity
    have hxpos : (0 : ℚ) < (s : ℚ) / (c : ℚ) := by
      have : (0 : ℚ) < s := by exact_mod_cast hspos
      positivity
    set x : ℚ := (s : ℚ) / (c : ℚ) with hxdef
    have hxs : x * c = s := by rw [hxdef]; field_simp
    unfold f32 flp
    rw [if_neg hx0, abs_of_pos hxpos]
    set e := Int.log 2 x with he
    have hlow : ((2 : ℕ) : ℚ) ^ e ≤ x := Int.zpow_log_le_self (by norm_num) hxpos
    have hcast : ((2 : ℕ) : ℚ) = 2 := by norm_num
    rw [hcast] at hlow
    have h2 : (0 : ℚ) < 2 := by norm_num
    -- `c * 2^e ≤ s < 2^24`
    have hce : (c : ℚ) * (2 : ℚ) ^ e < (2 : ℚ) ^ (24 : ℤ) := by
      have h1 : (c : ℚ) * (2 : ℚ) ^ e ≤ x * c := by
        rw [mul_comm]; exact mul_le_mul_of_nonneg_right hlow hcq.le
      have h3 : (s : ℚ) < (2 : ℚ) ^ (24 : ℤ) := by
        have : ((s : ℕ) : ℚ) < ((2 ^ 24 : ℕ) : ℚ) := by exact_mod_cast hs
        norm_num at this ⊢
        exact this
      linarith
    have he24 : e < 24 := by
      have h1 : (2 : ℚ) ^ e ≤ (c : ℚ) * (2 : ℚ) ^ e := by
        have : (1 : ℚ) ≤ c := by exact_mod_cast hc
        have hp := zpow_pos h2 e
        nlinarith
      have h3 : (2 : ℚ) ^ e < (2 : ℚ) ^ (24 : ℤ) := lt_of_le_of_lt h1 hce
      exact (zpow_lt_zpow_iff_right₀ (by norm_num : (1 : ℚ) < 2)).mp h3
    obtain ⟨n, hn⟩ : ∃ n : ℕ, (n : ℤ) = 23 - e := by
      refine ⟨(23 - e).toNat, ?_⟩
      rw [Int.toNat_of_nonneg]; omega
    have hu : (2 : ℚ) ^ (e - (((24 : ℕ) : ℤ) - 1)) = ((2 : ℚ) ^ n)⁻¹ := by
      have : e - (((24 : ℕ) : ℤ) - 1) = -(n : ℤ) := by rw [hn]; push_cast; ring
      rw [this, zpow_neg, zpow_natCast]
    simp only []
    rw [hu]
    have hpn : (0 : ℚ) < (2 : ℚ) ^ n := by positivity
    have hdiv : x / ((2 : ℚ) ^ n)⁻¹ = x * 2 ^ n := by field_simp
    rw [hdiv]
    set R := roundEven (x * 2 ^ n) with hR
    -- bounds on x
    have hxq : (q : ℚ) ≤ x := by
      rw [hxdef, le_div_iff₀ hcq]
      have : ((q * c : ℕ) : ℚ) ≤ ((s : ℕ) : ℚ) := by
        exact_mod_cast (by nlinarith : q * c ≤ s)
      push_cast at this; exact this
    have hxq1 : x ≤ (q : ℚ) + 1 - 1 / c := by
      rw [hxdef]
      rw [div_le_iff₀ hcq]
      have : ((s : ℕ) : ℚ) + 1 ≤ (((q + 1) * c : ℕ) : ℚ) := by
        exact_mod_cast (by nlinarith : s + 1 ≤ (q + 1) * c)
      push_cast at this
      field_simp
      linarith
    -- lower bound on R
    have hRlow : ((q * 2 ^ n : ℕ) : ℤ) ≤ R := by
      apply le_roundEven
      push_cast
      exact mul_le_mul_of_nonneg_right hxq hpn.le
    -- upper bound on R
    have hcn : (c : ℚ) < 2 * 2 ^ n := by
      have h24 : (2 : ℚ) ^ (24 : ℤ) = 2 * 2 ^ n * 2 ^ e := by
        have : (24 : ℤ) = 1 + n + e := by rw [hn]; ring
        rw [this, zpow_add₀ (by norm_num : (2 : ℚ) ≠ 0), zpow_add₀ (by norm_num : (2 : ℚ) ≠ 0),
          zpow_natCast, zpow_one]
      rw [h24] at hce
      exact lt_of_mul_lt_mul_right hce (zpow_pos h2 e).le
    have hRup : R < (((q + 1) * 2 ^ n : ℕ) : ℤ) := by
      apply roundEven_lt
      push_cast
      have h1 : x * 2 ^ n ≤ ((q : ℚ) + 1 - 1 / c) * 2 ^ n :=
        mul_le_mul_of_nonneg_right hxq1 hpn.le
      have h3 : (1 : ℚ) / 2 < 1 / c * 2 ^ n := by
        rw [div_mul_eq_mul_div, one_mul, lt_div_iff₀ hcq]
        linarith
      linarith
    rw [Int.floor_eq_iff]
    constructor
    · rw [← div_eq_mul_inv, le_div_iff₀ hpn]
      have : (((q * 2 ^ n : ℕ) : ℤ) : ℚ) ≤ (R : ℚ) := by exact_mod_cast hRlow
      push_cast at this ⊢
      exact this
    · rw [← div_eq_mul_inv, div_lt_iff₀ hpn]
      have : (R : ℚ) < ((((q + 1) * 2 ^ n : ℕ) : ℤ) : ℚ) := by exact_mod_cast hRup
      push_cast at this ⊢
      exact this

theorem c_to_byte_f32_div (s c : ℕ) (hc : 1 ≤ c) (hs : s < 2 ^ 24) (hq : s / c < 256) :
    ((c_to_byte (f32 ((s : ℚ) / (c : ℚ))) : Fin 256) : ℕ) = s / c := by
  have hfl := floor_f32_div s c hc hs
  have h0 : (0 : ℚ) ≤ f32 ((s : ℚ) / (c : ℚ)) := by
    have : (0 : ℤ) ≤ ⌊f32 ((s : ℚ) / (c : ℚ))⌋ := by rw [hfl]; positivity
    exact Int.floor_nonneg.mp this
  unfold c_to_byte
  simp only [h0, if_true, hfl, Int.toNat_ofNat]
  exact Nat.mod_eq_of_lt hq

/-- One channel of `PixelAverage` is the integer quotient of the channel sum by
the count, as long as the `float` accumulator stays exact. -/
theorem PixelAverage_channel (channel : png_pixel → Fin 256) (l : List png_pixel)
    (count : ℕ) (hc : 1 ≤ count) (hl : count ≤ l.length) (hb : 255 * count < 2 ^ 24) :
    ((c_to_byte (f32 (channel_sum channel l count / f32 (count : ℚ))) : Fin 256) : ℕ)
      = channel_total channel (l.take count) / count := by
  rw [channel_sum_exact channel l count hb.le, f32_natCast count (by omega)]
  have hlen : (l.take count).length = count := by simp [List.length_take, hl]
  have hle := channel_total_le channel (l.take count)
  rw [hlen] at hle
  apply c_to_byte_f32_div _ _ hc (by omega)
  have : channel_total channel (l.take count) / count ≤ 255 := by
    apply Nat.div_le_of_le_mul
    rw [mul_comm]; exact hle
  omega

/-- In a `float`, `2^24 + 1` rounds back to `2^24`. -/
theorem f32_saturate : f32 (16777216 + 1) = 16777216 := by
  have hlog : Int.log 2 (16777217 : ℚ) = 24 := by
    have h := Int.log_natCast (R := ℚ) 2 16777217
    have h2 : Nat.log 2 16777217 = 24 := by
      rw [Nat.log_eq_iff (by norm_num)]
      norm_num
    rw [h2] at h
    exact_mod_cast h
  have hx : ((16777216 : ℚ) + 1) = 16777217 := by norm_num
  have hfl : ⌊(16777217 : ℚ) / 2⌋ = 8388608 := by
    rw [Int.floor_eq_iff]; norm_num
  unfold f32 flp
  rw [hx, if_neg (by norm_num), abs_of_pos (by norm_num), hlog]
  norm_num [roundEven, hfl]

/-- Adding a channel of value 1 repeatedly in a `float` stops at `2^24`. -/
theorem foldl_replicate_saturates (channel : png_pixel → Fin 256) (p : png_pixel)
    (hch : ((channel p : Fin 256) : ℕ) = 1) (n : ℕ) :
    (List.replicate n p).foldl (fun acc p => f32 (acc + ((channel p : ℕ) : ℚ))) 0
      = ((min n (2 ^ 24) : ℕ) : ℚ) := by
  induction n with
  | zero => simp
  | succ n ih =>
    rw [List.replicate_succ', List.foldl_append, ih]
    simp only [List.foldl_cons, List.foldl_nil, hch, Nat.cast_one]
    rcases Nat.lt_or_ge n (2 ^ 24) with h | h
    · rw [Nat.min_eq_left h.le, Nat.min_eq_left (by omega), ← Nat.cast_one, ← Nat.cast_add]
      exact f32_natCast_le _ (by omega)
    · rw [Nat.min_eq_right h, Nat.min_eq_right (by omega)]
      have := f32_saturate
      norm_num at this ⊢
      exact this

theorem PixelVariance_four (avg p1 p2 p3 p4 : png_pixel) :
    PixelVariance avg [p1, p2, p3, p4] 4
      = ((raw_distance avg p1 + raw_distance avg p2 + raw_distance avg p3
          + raw_distance avg p4 : ℤ) : ℚ) / 4194304 := by
  have a1 := raw_distance_nonneg avg p1
  have a2 := raw_distance_nonneg avg p2
  have a3 := raw_distance_nonneg avg p3
  have a4 := raw_distance_nonneg avg p4
  have b1 := raw_distance_le avg p1
  have b2 := raw_distance_le avg p2
  have b3 := raw_distance_le avg p3
  have b4 := raw_distance_le avg p4
  have key : ∀ n : ℤ, 0 ≤ n → n ≤ 1040400 → f32 ((n : ℚ) / 1048576) = (n : ℚ) / 1048576 := by
    intro n h0 h1
    have := f32_int_div_two_pow n 20 (by rw [abs_of_nonneg h0]; omega)
    norm_num at this
    exact this
  have h4 : f32 ((4 : ℕ) : ℚ) = 4 := by
    have := f32_natCast 4 (by norm_num)
    exact_mod_cast this
  unfold PixelVariance
  simp only [List.take, List.foldl_cons, List.foldl_nil, PixelColorDistance_eq, zero_add, h4]
  rw [key _ a1 (by omega)]
  rw [← add_div, ← Int.cast_add, key _ (by omega) (by omega)]
  rw [← add_div, ← Int.cast_add, key _ (by omega) (by omega)]
  rw [← add_div, ← Int.cast_add, key _ (by omega) (by omega)]
  have := f32_int_div_two_pow
    (raw_distance avg p1 + raw_distance avg p2 + raw_distance avg p3 + raw_distance avg p4) 22
    (by rw [abs_of_nonneg (by omega)]; omega)
  norm_num at this
  rw [div_div]
  norm_num
  exact this

/-- The variance of four pixels is the mean of their four distances to `avg`. -/
theorem PixelVariance_four_mean (avg p1 p2 p3 p4 : png_pixel) :
    PixelVariance avg [p1, p2, p3, p4] 4
      = (PixelColorDistance avg p1 + PixelColorDistance avg p2
          + PixelColorDistance avg p3 + PixelColorDistance avg p4) / 4 := by
  rw [PixelVariance_four]
  simp only [PixelColorDistance_eq]
  push_cast
  ring

/-! ## Pruning -/

theorem wellFormed_toNode (T : QTree) : WellFormed T.toNode := by
  induction T with
  | leaf p => exact WellFormed.leaf p
  | node a b c d iha ihb ihc ihd => exact WellFormed.internal _ _ _ _ iha ihb ihc ihd

theorem wellFormed_iff (n : quad_node) : WellFormed n ↔ ∃ T : QTree, n = T.toNode := by
  constructor
  · intro h
    induction h with
    | leaf p => exact ⟨.leaf p, rfl⟩
    | internal a b c d _ _ _ _ iha ihb ihc ihd =>
      obtain ⟨A, rfl⟩ := iha
      obtain ⟨B, rfl⟩ := ihb
      obtain ⟨C, rfl⟩ := ihc
      obtain ⟨D, rfl⟩ := ihd
      exact ⟨.node A B C D, rfl⟩
  · rintro ⟨T, rfl⟩
    exact wellFormed_toNode T

theorem toNode_value (T : QTree) : T.toNode.value = T.leafValue := by
  cases T <;> rfl

theorem toNode_injective : Function.Injective QTree.toNode := by
  intro A
  induction A with
  | leaf p =>
    intro B h
    cases B with
    | leaf q => simp [QTree.toNode] at h; rw [h]
    | node _ _ _ _ => simp [QTree.toNode] at h
  | node a b c d iha ihb ihc ihd =>
    intro B h
    cases B with
    | leaf q => simp [QTree.toNode] at h
    | node a1 b1 c1 d1 =>
      simp only [QTree.toNode, quad_node.mk.injEq, qn_ptr.child.injEq, true_and] at h
      rw [iha h.1, ihb h.2.1, ihc h.2.2.1, ihd h.2.2.2]

/-- On a well-formed tree `PruneBranches` returns, with any fuel above the
depth, the node structure of the pruned tree. -/
theorem PruneBranches_toNode (t : ℚ) (T : QTree) :
    ∀ fuel, T.depth < fuel → PruneBranches fuel T.toNode t = .ok (T.prune t).toNode := by
  induction T with
  | leaf p =>
    intro fuel hf
    obtain ⟨f, rfl⟩ : ∃ f, fuel = f + 1 := ⟨fuel - 1, by omega⟩
    simp [PruneBranches, QTree.toNode, QTree.prune, quad_node.q1, qn_ptr.isNull]
  | node a b c d iha ihb ihc ihd =>
    intro fuel hf
    obtain ⟨f, rfl⟩ : ∃ f, fuel = f + 1 := ⟨fuel - 1, by omega⟩
    simp only [QTree.depth] at hf
    have ha := iha f (by omega)
    have hb := ihb f (by omega)
    have hc := ihc f (by omega)
    have hd := ihd f (by omega)
    simp only [PruneBranches, QTree.toNode, quad_node.q1, quad_node.q2, quad_node.q3,
      quad_node.q4, qn_ptr.isNull, call_q1, call_q2, call_q3, call_q4, ha, hb, hc, hd,
      ptr_value, toNode_value, QTree.prune]
    cases hA : a.prune t <;> cases hB : b.prune t <;> cases hC : c.prune t <;>
      cases hD : d.prune t <;>
      simp [QTree.leafValue, QTree.toNode, merge_four]
    split_ifs <;> simp [QTree.toNode]

theorem toNode_depth (T : QTree) : T.toNode.depth = T.depth := by
  induction T with
  | leaf p => simp [QTree.toNode, quad_node.depth, qn_ptr.depth, QTree.depth]
  | node a b c d iha ihb ihc ihd =>
    simp [QTree.toNode, quad_node.depth, qn_ptr.depth, QTree.depth, iha, ihb, ihc, ihd]
    omega

theorem toNode_count (T : QTree) : T.toNode.count = T.count := by
  induction T with
  | leaf p => simp [QTree.toNode, quad_node.count, qn_ptr.count, QTree.count]
  | node a b c d iha ihb ihc ihd =>
    simp [QTree.toNode, quad_node.count, qn_ptr.count, QTree.count, iha, ihb, ihc, ihd]

theorem toNode_sub (T : QTree) (i : Fin 4) :
    T.toNode.sub i = (T.sub i).map QTree.toNode := by
  cases T with
  | leaf p =>
    fin_cases i <;> rfl
  | node a b c d =>
    fin_cases i <;> rfl

theorem toNode_at (T : QTree) (path : List (Fin 4)) :
    T.toNode.at path = (T.at path).map QTree.toNode := by
  induction path generalizing T with
  | nil => rfl
  | cons i path ih =>
    simp only [quad_node.at, QTree.at, toNode_sub]
    cases h : T.sub i with
    | none => rfl
    | some c => simpa using ih c

theorem toNode_isInternal (T : QTree) :
    T.toNode.isInternal = true ↔ ∃ a b c d, T = .node a b c d := by
  cases T <;> simp [QTree.toNode, quad_node.isInternal]

theorem toNode_isLeaf (T : QTree) :
    T.toNode.isLeaf = true ↔ ∃ p, T = .leaf p := by
  cases T <;> simp [QTree.toNode, quad_node.isLeaf]

theorem prune_leaf (t : ℚ) (p : png_pixel) : (QTree.leaf p).prune t = .leaf p := rfl

/-- Pruning a node: either the four pruned children are leaves and the merge
rule decides, or the node keeps its four pruned children. -/
theorem prune_node_cases (t : ℚ) (a b c d : QTree) :
    (∃ p1 p2 p3 p4, a.prune t = .leaf p1 ∧ b.prune t = .leaf p2 ∧ c.prune t = .leaf p3 ∧
        d.prune t = .leaf p4 ∧ (QTree.node a b c d).prune t = merge_four t p1 p2 p3 p4) ∨
    ((a.prune t).leafValue = none ∨ (b.prune t).leafValue = none ∨
        (c.prune t).leafValue = none ∨ (d.prune t).leafValue = none) ∧
      (QTree.node a b c d).prune t = .node (a.prune t) (b.prune t) (c.prune t) (d.prune t) := by
  simp only [QTree.prune]
  cases a.prune t <;> cases b.prune t <;> cases c.prune t <;> cases d.prune t <;>
    simp [QTree.leafValue]

theorem merge_four_cases (t : ℚ) (p1 p2 p3 p4 : png_pixel) :
    (PixelVariance (PixelAverage [p1, p2, p3, p4] 4) [p1, p2, p3, p4] 4 < t ∧
        merge_four t p1 p2 p3 p4 = .leaf (PixelAverage [p1, p2, p3, p4] 4)) ∨
    (¬ PixelVariance (PixelAverage [p1, p2, p3, p4] 4) [p1, p2, p3, p4] 4 < t ∧
        merge_four t p1 p2 p3 p4 = .node (.leaf p1) (.leaf p2) (.leaf p3) (.leaf p4)) := by
  unfold merge_four
  split_ifs with h
  · exact Or.inl ⟨h, rfl⟩
  · exact Or.inr ⟨h, rfl⟩

/-- Pruning a node whose pruned children are not all leaves keeps the node. -/
theorem prune_node_of_not_leaves (t : ℚ) (a b c d : QTree)
    (h : (a.prune t).leafValue = none ∨ (b.prune t).leafValue = none ∨
        (c.prune t).leafValue = none ∨ (d.prune t).leafValue = none) :
    (QTree.node a b c d).prune t = .node (a.prune t) (b.prune t) (c.prune t) (d.prune t) := by
  rcases prune_node_cases t a b c d with ⟨p1, p2, p3, p4, h1, h2, h3, h4, _⟩ | ⟨_, h5⟩
  · rw [h1, h2, h3, h4] at h; simp [QTree.leafValue] at h
  · exact h5

theorem prune_node_of_leaves (t : ℚ) (a b c d : QTree) (p1 p2 p3 p4 : png_pixel)
    (h1 : a.prune t = .leaf p1) (h2 : b.prune t = .leaf p2) (h3 : c.prune t = .leaf p3)
    (h4 : d.prune t = .leaf p4) :
    (QTree.node a b c d).prune t = merge_four t p1 p2 p3 p4 := by
  simp only [QTree.prune, h1, h2, h3, h4]

theorem prune_idem (t : ℚ) (T : QTree) : (T.prune t).prune t = T.prune t := by
  induction T with
  | leaf p => rfl
  | node a b c d iha ihb ihc ihd =>
    rcases prune_node_cases t a b c d with ⟨p1, p2, p3, p4, h1, h2, h3, h4, h5⟩ | ⟨h, h5⟩
    · rw [h5]
      rcases merge_four_cases t p1 p2 p3 p4 with ⟨_, hm⟩ | ⟨hv, hm⟩
      · rw [hm]; rfl
      · rw [hm, prune_node_of_leaves t (.leaf p1) (.leaf p2) (.leaf p3) (.leaf p4) p1 p2 p3 p4
          rfl rfl rfl rfl, hm]
    · rw [h5]
      rw [prune_node_of_not_leaves t _ _ _ _ (by rw [iha, ihb, ihc, ihd]; exact h),
        iha, ihb, ihc, ihd]

/-- A pruned node that is still a node has the pruned children of the original. -/
theorem prune_eq_node (t : ℚ) (T : QTree) (a1 b1 c1 d1 : QTree)
    (h : T.prune t = .node a1 b1 c1 d1) :
    ∃ a b c d, T = .node a b c d ∧ a1 = a.prune t ∧ b1 = b.prune t ∧ c1 = c.prune t ∧
      d1 = d.prune t := by
  cases T with
  | leaf p => simp [QTree.prune] at h
  | node a b c d =>
    refine ⟨a, b, c, d, rfl, ?_⟩
    rcases prune_node_cases t a b c d with ⟨p1, p2, p3, p4, h1, h2, h3, h4, h5⟩ | ⟨_, h5⟩
    · rw [h5] at h
      rcases merge_four_cases t p1 p2 p3 p4 with ⟨_, hm⟩ | ⟨_, hm⟩
      · rw [hm] at h; simp at h
      · rw [hm] at h
        simp only [QTree.node.injEq] at h
        rw [h1, h2, h3, h4]
        exact ⟨h.1.symm, h.2.1.symm, h.2.2.1.symm, h.2.2.2.symm⟩
    · rw [h5] at h
      simp only [QTree.node.injEq] at h
      exact ⟨h.1.symm, h.2.1.symm, h.2.2.1.symm, h.2.2.2.symm⟩

/-- Every position of the pruned tree is a position of the original tree, and
the subtree found there is the pruned original subtree. -/
theorem prune_at (t : ℚ) (path : List (Fin 4)) :
    ∀ (T S1 : QTree), (T.prune t).at path = some S1 →
      ∃ S, T.at path = some S ∧ S1 = S.prune t := by
  induction path with
  | nil =>
    intro T S1 h
    simp only [QTree.at, Option.some.injEq] at h
    exact ⟨T, rfl, h.symm⟩
  | cons i path ih =>
    intro T S1 h
    simp only [QTree.at] at h
    cases hP : T.prune t with
    | leaf p => rw [hP] at h; simp [QTree.sub] at h
    | node a1 b1 c1 d1 =>
      obtain ⟨a, b, c, d, rfl, ha, hb, hc, hd⟩ := prune_eq_node t T a1 b1 c1 d1 hP
      rw [hP] at h
      subst ha hb hc hd
      fin_cases i
      · exact ih a S1 (by simpa [QTree.sub] using h)
      · exact ih b S1 (by simpa [QTree.sub] using h)
      · exact ih c S1 (by simpa [QTree.sub] using h)
      · exact ih d S1 (by simpa [QTree.sub] using h)

theorem merge_four_depth (t : ℚ) (p1 p2 p3 p4 : png_pixel) :
    (merge_four t p1 p2 p3 p4).depth ≤ 1 := by
  rcases merge_four_cases t p1 p2 p3 p4 with ⟨_, hm⟩ | ⟨_, hm⟩ <;> rw [hm] <;>
    simp [QTree.depth]

theorem merge_four_count (t : ℚ) (p1 p2 p3 p4 : png_pixel) :
    (merge_four t p1 p2 p3 p4).count ≤ 5 := by
  rcases merge_four_cases t p1 p2 p3 p4 with ⟨_, hm⟩ | ⟨_, hm⟩ <;> rw [hm] <;>
    simp [QTree.count]

theorem count_pos (T : QTree) : 1 ≤ T.count := by
  cases T <;> simp [QTree.count]

theorem prune_depth_le (t : ℚ) (T : QTree) : (T.prune t).depth ≤ T.depth := by
  induction T with
  | leaf p => simp [QTree.prune]
  | node a b c d iha ihb ihc ihd =>
    rcases prune_node_cases t a b c d with ⟨p1, p2, p3, p4, h1, h2, h3, h4, h5⟩ | ⟨_, h5⟩
    · rw [h5]
      have := merge_four_depth t p1 p2 p3 p4
      simp only [QTree.depth]
      omega
    · rw [h5]
      simp only [QTree.depth]
      omega

theorem prune_count_le (t : ℚ) (T : QTree) : (T.prune t).count ≤ T.count := by
  induction T with
  | leaf p => simp [QTree.prune]
  | node a b c d iha ihb ihc ihd =>
    rcases prune_node_cases t a b c d with ⟨p1, p2, p3, p4, h1, h2, h3, h4, h5⟩ | ⟨_, h5⟩
    · rw [h5]
      have := merge_four_count t p1 p2 p3 p4
      have := count_pos a
      have := count_pos b
      have := count_pos c
      have := count_pos d
      simp only [QTree.count]
      omega
    · rw [h5]
      simp only [QTree.count]
      omega

/-! ## Matrices -/

theorem mat_read_of_cell (mat : pixel_mat) (y x : ℕ) (p : png_pixel)
    (h : mat_cell mat y x = some (some p)) : mat_read mat y x = .ok p := by
  unfold mat_cell at h
  unfold mat_read
  cases hr : mat[y]? with
  | none => rw [hr] at h; simp at h
  | some r =>
    cases r with
    | none => rw [hr] at h; simp at h
    | some row =>
      rw [hr] at h
      simp only at h ⊢
      rw [h]

/-- A write to an allocated cell succeeds, keeps the allocation shape and
changes that cell only. -/
theorem mat_write_of_cell (mat : pixel_mat) (y x : ℕ) (p : png_pixel)
    (h : (mat_cell mat y x).isSome = true) :
    ∃ mat1, mat_write mat y x p = .ok mat1 ∧ mat_shape mat1 = mat_shape mat ∧
      ∀ y1 x1, mat_cell mat1 y1 x1
        = if y1 = y ∧ x1 = x then some (some p) else mat_cell mat y1 x1 := by
  unfold mat_cell at h
  cases hr : mat[y]? with
  | none => rw [hr] at h; simp at h
  | some r =>
    cases r with
    | none => rw [hr] at h; simp at h
    | some row =>
      rw [hr] at h
      simp only at h
      have hx : x < row.length := by
        by_contra hx
        rw [List.getElem?_eq_none (by omega)] at h
        simp at h
      have hy : y < mat.length := by
        by_contra hy
        rw [List.getElem?_eq_none (by omega)] at hr
        simp at hr
      refine ⟨mat.set y (some (row.set x (some p))), ?_, ?_, ?_⟩
      · unfold mat_write
        rw [hr]
        simp [hx]
      · unfold mat_shape
        apply List.ext_getElem?
        intro n
        rw [List.getElem?_map, List.getElem?_map, List.getElem?_set]
        by_cases hn : y = n
        · subst hn
          simp [hy, hr]
        · simp [hn]
      · intro y1 x1
        unfold mat_cell
        rw [List.getElem?_set]
        by_cases hn : y = y1
        · subst hn
          simp only [hy, if_true, hr, true_and]
          rw [List.getElem?_set]
          by_cases hm : x = x1
          · subst hm
            simp [hx]
          · have : ¬ x1 = x := fun e => hm e.symm
            simp [hm, this]
        · have : ¬ y1 = y := fun e => hn e.symm
          simp [hn, this]

theorem grid_of_cell (w h : ℕ) (f : ℕ → ℕ → png_pixel) (y x : ℕ) (hy : y < h) (hx : x < w) :
    mat_cell (grid_of w h f) y x = some (some (f y x)) := by
  unfold mat_cell grid_of
  rw [List.getElem?_map, List.getElem?_range hy]
  simp only [Option.map_some']
  rw [List.getElem?_map, List.getElem?_range hx]
  rfl

theorem grid_of_shape (w h : ℕ) (f : ℕ → ℕ → png_pixel) :
    mat_shape (grid_of w h f) = List.replicate h (some w) := by
  unfold mat_shape grid_of
  apply List.ext_getElem?
  intro n
  rw [List.getElem?_map, List.getElem?_map, List.getElem?_replicate]
  by_cases hn : n < h
  · rw [List.getElem?_range hn]
    simp [hn]
  · have hnone : (List.range h)[n]? = none := List.getElem?_eq_none (by simp; omega)
    rw [hnone]
    simp [hn]

/-- A matrix is determined by its allocation shape and its written cells. -/
theorem eq_grid_of (w h : ℕ) (f : ℕ → ℕ → png_pixel) (mat : pixel_mat)
    (hs : mat_shape mat = List.replicate h (some w))
    (hc : ∀ y x, y < h → x < w → mat_cell mat y x = some (some (f y x))) :
    mat = grid_of w h f := by
  apply List.ext_getElem?
  intro y
  have hsy : (mat_shape mat)[y]? = (List.replicate h (some w))[y]? := by rw [hs]
  unfold mat_shape at hsy
  rw [List.getElem?_map, List.getElem?_replicate] at hsy
  unfold grid_of
  rw [List.getElem?_map]
  by_cases hy : y < h
  · rw [List.getElem?_range hy]
    rw [if_pos hy] at hsy
    cases hr : mat[y]? with
    | none => rw [hr] at hsy; simp at hsy
    | some r =>
      cases r with
      | none => rw [hr] at hsy; simp at hsy
      | some row =>
        rw [hr] at hsy
        simp only [Option.map_some', Option.some.injEq] at hsy ⊢
        apply List.ext_getElem?
        intro x
        rw [List.getElem?_map]
        by_cases hx : x < w
        · rw [List.getElem?_range hx]
          have := hc y x hy hx
          unfold mat_cell at this
          rw [hr] at this
          simpa using this
        · have hnone : (List.range w)[x]? = none := List.getElem?_eq_none (by simp; omega)
          rw [hnone, List.getElem?_eq_none (by omega)]
          rfl
  · rw [if_neg hy] at hsy
    have hnone : (List.range h)[y]? = none := List.getElem?_eq_none (by simp; omega)
    rw [hnone]
    cases hr : mat[y]? with
    | none => rfl
    | some r => rw [hr] at hsy; simp at hsy

theorem is_grid_spec (w h : ℕ) (mat : pixel_mat) (hg : is_grid w h mat = true) :
    mat_shape mat = List.replicate h (some w) ∧
      ∀ y x, y < h → x < w → mat_cell mat y x = some (some (mat_px mat y x)) := by
  unfold is_grid at hg
  simp only [Bool.and_eq_true, beq_iff_eq, List.all_eq_true] at hg
  obtain ⟨hlen, hrows⟩ := hg
  have hrow : ∀ y, y < h → ∃ row, mat[y]? = some (some row) ∧ row.length = w ∧
      ∀ c ∈ row, Option.isSome c = true := by
    intro y hy
    have hy1 : y < mat.length := by omega
    have hmem : mat[y] ∈ mat := List.getElem_mem hy1
    have := hrows _ hmem
    cases hr : mat[y] with
    | none => rw [hr] at this; simp at this
    | some row =>
      rw [hr] at this
      simp only [Bool.and_eq_true, beq_iff_eq, List.all_eq_true] at this
      exact ⟨row, by rw [List.getElem?_eq_getElem hy1, hr], this.1, this.2⟩
  constructor
  · unfold mat_shape
    apply List.ext_getElem?
    intro y
    rw [List.getElem?_map, List.getElem?_replicate]
    by_cases hy : y < h
    · obtain ⟨row, hr, hl, _⟩ := hrow y hy
      rw [hr, if_pos hy, ← hl]
      rfl
    · rw [if_neg hy, List.getElem?_eq_none (by omega)]
      rfl
  · intro y x hy hx
    obtain ⟨row, hr, hl, hcells⟩ := hrow y hy
    have hx1 : x < row.length := by omega
    have hmem : row[x] ∈ row := List.getElem_mem hx1
    have hsome := hcells _ hmem
    unfold mat_px mat_cell
    rw [hr]
    simp only
    rw [List.getElem?_eq_getElem hx1]
    cases hc : row[x] with
    | none => rw [hc] at hsome; simp at hsome
    | some p => rfl

theorem is_grid_eq_grid_of (w h : ℕ) (mat : pixel_mat) (hg : is_grid w h mat = true) :
    mat = grid_of w h (mat_px mat) :=
  eq_grid_of w h _ mat (is_grid_spec w h mat hg).1 (is_grid_spec w h mat hg).2

theorem is_grid_grid_of (w h : ℕ) (f : ℕ → ℕ → png_pixel) :
    is_grid w h (grid_of w h f) = true := by
  unfold is_grid grid_of
  simp [List.all_eq_true]

theorem cell_isSome_of_shape (w h : ℕ) (mat : pixel_mat)
    (hs : mat_shape mat = List.replicate h (some w)) (y x : ℕ) (hy : y < h) (hx : x < w) :
    (mat_cell mat y x).isSome = true := by
  have hsy : (mat_shape mat)[y]? = (List.replicate h (some w))[y]? := by rw [hs]
  unfold mat_shape at hsy
  rw [List.getElem?_map, List.getElem?_replicate, if_pos hy] at hsy
  unfold mat_cell
  cases hr : mat[y]? with
  | none => rw [hr] at hsy; simp at hsy
  | some r =>
    cases r with
    | none => rw [hr] at hsy; simp at hsy
    | some row =>
      rw [hr] at hsy
      simp only [Option.map_some', Option.some.injEq] at hsy
      simp only
      rw [List.getElem?_eq_getElem (by omega)]
      rfl

theorem image_alloc_loop (width height : ℕ) (i : ℕ) (hi : i ≤ height) :
    c_for i
      (fun i (mat : pixel_mat) =>
        if i < mat.length then Except.ok (mat.set i (some (List.replicate width none)))
        else Except.error Err.out_of_bounds)
      (List.replicate height none) = .ok (alloc_state width height i) := by
  induction i with
  | zero =>
    simp only [c_for, alloc_state]
    congr 1
    apply List.ext_getElem?
    intro n
    rw [List.getElem?_replicate, List.getElem?_map]
    by_cases hn : n < height
    · rw [List.getElem?_range hn]; simp [hn]
    · have hnone : (List.range height)[n]? = none := List.getElem?_eq_none (by simp; omega)
      rw [hnone]; simp [hn]
  | succ i ih =>
    simp only [c_for, ih (by omega)]
    have hlen : (alloc_state width height i).length = height := by simp [alloc_state]
    rw [hlen, if_pos (by omega)]
    congr 1
    apply List.ext_getElem?
    intro n
    unfold alloc_state
    rw [List.getElem?_set, List.getElem?_map, List.getElem?_map]
    by_cases hn : n < height
    · rw [List.getElem?_range hn]
      by_cases hin : i = n
      · subst hin; simp [hn]
      · simp only [hin, if_false, Option.map_some']
        congr 1
        by_cases h1 : n < i
        · simp [h1, Nat.lt_succ_of_lt h1]
        · have : ¬ n < i + 1 := by omega
          simp [h1, this]
    · have hnone : (List.range height)[n]? = none := List.getElem?_eq_none (by simp; omega)
      rw [hnone]
      have : ¬ i = n := by omega
      simp [this]

/-- On a square, `image_alloc` returns `n` rows of `n` unwritten cells. -/
theorem image_alloc_square (n : ℕ) :
    ∃ mat, image_alloc n n = .ok mat ∧ mat_shape mat = List.replicate n (some n) ∧
      ∀ y x, y < n → x < n → mat_cell mat y x = some none := by
  refine ⟨alloc_state n n n, image_alloc_loop n n n (le_refl n), ?_, ?_⟩
  · unfold mat_shape alloc_state
    apply List.ext_getElem?
    intro y
    rw [List.getElem?_map, List.getElem?_map, List.getElem?_replicate]
    by_cases hy : y < n
    · rw [List.getElem?_range hy]; simp [hy]
    · have hnone : (List.range n)[y]? = none := List.getElem?_eq_none (by simp; omega)
      rw [hnone]; simp [hy]
  · intro y x hy hx
    unfold mat_cell alloc_state
    rw [List.getElem?_map, List.getElem?_range hy]
    simp only [Option.map_some', hy, if_true]
    rw [List.getElem?_replicate, if_pos hx]

/-! ## `SplitImgIn4` -/

theorem sub_inv_write (m : ℕ) (g : ℕ → ℕ → png_pixel) (i j : ℕ) (s : pixel_mat)
    (h : sub_inv m g i j s) (hi : i < m) (hj : j < m) :
    ∃ s1, mat_write s j i (g j i) = .ok s1 ∧ sub_inv m g i (j + 1) s1 := by
  obtain ⟨hs, hc⟩ := h
  obtain ⟨s1, hw, hs1, hc1⟩ :=
    mat_write_of_cell s j i (g j i) (cell_isSome_of_shape m m s hs j i hj hi)
  refine ⟨s1, hw, by rw [hs1, hs], ?_⟩
  intro y x hy hx hd
  rw [hc1]
  by_cases hyx : y = j ∧ x = i
  · rw [if_pos hyx, hyx.1, hyx.2]
  · rw [if_neg hyx]
    apply hc y x hy hx
    rcases hd with hd | ⟨hd1, hd2⟩
    · exact Or.inl hd
    · refine Or.inr ⟨hd1, ?_⟩
      rcases Nat.lt_or_ge y j with h1 | h1
      · exact h1
      · exact absurd ⟨by omega, hd1⟩ hyx

theorem split_body_ok (mat : pixel_mat) (width height m : ℕ) (f : ℕ → ℕ → png_pixel)
    (hw : width / 2 = m) (hh : height / 2 = m)
    (hf : ∀ y x, y < 2 * m → x < 2 * m → mat_cell mat y x = some (some (f y x)))
    (i j : ℕ) (hi : i < m) (hj : j < m) (s : sub_imgs) (h : split_inv m f i j s) :
    ∃ s1, split_body mat width height i j s = .ok s1 ∧ split_inv m f i (j + 1) s1 := by
  obtain ⟨h0, h1, h2, h3⟩ := h
  obtain ⟨t0, w0, k0⟩ := sub_inv_write m _ i j s.s0 h0 hi hj
  obtain ⟨t1, w1, k1⟩ := sub_inv_write m _ i j s.s1 h1 hi hj
  obtain ⟨t2, w2, k2⟩ := sub_inv_write m _ i j s.s2 h2 hi hj
  obtain ⟨t3, w3, k3⟩ := sub_inv_write m _ i j s.s3 h3 hi hj
  refine ⟨⟨t0, t1, t2, t3⟩, ?_, k0, k1, k2, k3⟩
  unfold split_body
  rw [hw, hh]
  rw [mat_read_of_cell mat j i _ (hf j i (by omega) (by omega)),
    mat_read_of_cell mat j (i + m) _ (hf j (i + m) (by omega) (by omega)),
    mat_read_of_cell mat (j + m) i _ (hf (j + m) i (by omega) (by omega)),
    mat_read_of_cell mat (j + m) (i + m) _ (hf (j + m) (i + m) (by omega) (by omega))]
  simp only [bind, Except.bind, w0, w1, w2, w3]
  rfl

theorem split_inner_loop (mat : pixel_mat) (width height m : ℕ) (f : ℕ → ℕ → png_pixel)
    (hw : width / 2 = m) (hh : height / 2 = m)
    (hf : ∀ y x, y < 2 * m → x < 2 * m → mat_cell mat y x = some (some (f y x)))
    (i : ℕ) (hi : i < m) (s : sub_imgs) (h : split_inv m f i 0 s) (j : ℕ) (hj : j ≤ m) :
    ∃ s1, c_for j (fun y s => split_body mat width height i y s) s = .ok s1 ∧
      split_inv m f i j s1 := by
  induction j with
  | zero => exact ⟨s, rfl, h⟩
  | succ j ih =>
    obtain ⟨s1, hs1, hinv⟩ := ih (by omega)
    obtain ⟨s2, hs2, hinv2⟩ := split_body_ok mat width height m f hw hh hf i j hi (by omega) s1 hinv
    refine ⟨s2, ?_, hinv2⟩
    simp only [c_for, hs1, hs2]

theorem sub_inv_next (m : ℕ) (g : ℕ → ℕ → png_pixel) (i : ℕ) (s : pixel_mat)
    (h : sub_inv m g i m s) : sub_inv m g (i + 1) 0 s := by
  refine ⟨h.1, ?_⟩
  intro y x hy hx hd
  apply h.2 y x hy hx
  rcases hd with hd | ⟨_, hd2⟩
  · rcases Nat.lt_or_ge x i with h1 | h1
    · exact Or.inl h1
    · exact Or.inr ⟨by omega, hy⟩
  · omega

theorem split_outer_loop (mat : pixel_mat) (width height m : ℕ) (f : ℕ → ℕ → png_pixel)
    (hw : width / 2 = m) (hh : height / 2 = m)
    (hf : ∀ y x, y < 2 * m → x < 2 * m → mat_cell mat y x = some (some (f y x)))
    (s : sub_imgs) (h : split_inv m f 0 0 s) (i : ℕ) (hi : i ≤ m) :
    ∃ s1, c_for i
        (fun x s => c_for (height / 2) (fun y s => split_body mat width height x y s) s) s
          = .ok s1 ∧ split_inv m f i 0 s1 := by
  induction i with
  | zero => exact ⟨s, rfl, h⟩
  | succ i ih =>
    obtain ⟨s1, hs1, hinv⟩ := ih (by omega)
    obtain ⟨s2, hs2, hinv2⟩ :=
      split_inner_loop mat width height m f hw hh hf i (by omega) s1 hinv m (le_refl m)
    refine ⟨s2, ?_, ?_⟩
    · simp only [c_for]
      rw [hs1]
      simp only [hh, hs2]
    · obtain ⟨k0, k1, k2, k3⟩ := hinv2
      exact ⟨sub_inv_next m _ i _ k0, sub_inv_next m _ i _ k1, sub_inv_next m _ i _ k2,
        sub_inv_next m _ i _ k3⟩

theorem sub_inv_init (m : ℕ) (g : ℕ → ℕ → png_pixel) (s : pixel_mat)
    (hs : mat_shape s = List.replicate m (some m)) : sub_inv m g 0 0 s := by
  refine ⟨hs, ?_⟩
  intro y x _ _ hd
  omega

theorem sub_inv_final (m : ℕ) (g : ℕ → ℕ → png_pixel) (s : pixel_mat)
    (h : sub_inv m g m 0 s) : s = grid_of m m g :=
  eq_grid_of m m g s h.1 (fun y x hy hx => h.2 y x hy hx (Or.inl hx))

/-- The function `SplitImgIn4` on a matrix whose top-left `2m x 2m` cells hold
the pixels `f`, with `width / 2 = height / 2 = m`: the four quadrants. -/
theorem SplitImgIn4_ok (mat : pixel_mat) (width height m : ℕ) (f : ℕ → ℕ → png_pixel)
    (hw : width / 2 = m) (hh : height / 2 = m)
    (hf : ∀ y x, y < 2 * m → x < 2 * m → mat_cell mat y x = some (some (f y x))) :
    SplitImgIn4 mat width height = .ok
      ⟨grid_of m m f, grid_of m m (fun y x => f y (x + m)),
        grid_of m m (fun y x => f (y + m) x), grid_of m m (fun y x => f (y + m) (x + m))⟩ := by
  obtain ⟨a, ha, hsa, _⟩ := image_alloc_square m
  have hinit : split_inv m f 0 0 ⟨a, a, a, a⟩ :=
    ⟨sub_inv_init m _ a hsa, sub_inv_init m _ a hsa, sub_inv_init m _ a hsa,
      sub_inv_init m _ a hsa⟩
  obtain ⟨s1, hs1, k0, k1, k2, k3⟩ :=
    split_outer_loop mat width height m f hw hh hf ⟨a, a, a, a⟩ hinit m (le_refl m)
  have ha1 : image_alloc m (height / 2) = .ok a := by rw [hh]; exact ha
  unfold SplitImgIn4
  simp only [hw, ha1, bind, Except.bind]
  rw [hs1]
  congr 1
  have e0 := sub_inv_final m _ _ k0
  have e1 := sub_inv_final m _ _ k1
  have e2 := sub_inv_final m _ _ k2
  have e3 := sub_inv_final m _ _ k3
  cases s1
  simp only at e0 e1 e2 e3
  rw [e0, e1, e2, e3]

/-! ## `RecMatToNode` -/

theorem two_pow_succ_div (k : ℕ) : 2 ^ (k + 1) / 2 = 2 ^ k := by
  rw [pow_succ]; exact Nat.mul_div_cancel _ (by norm_num)

theorem two_pow_succ_ne_one (k : ℕ) : ¬ (2 ^ (k + 1) = 1) := by
  have : 0 < 2 ^ k := Nat.pow_pos (by norm_num)
  rw [pow_succ]; omega

/-- On a matrix whose top-left `2^k x 2^k` cells hold the pixels `f`,
`RecMatToNode` returns, with any fuel above `k`, the node structure of
`build_tree k f`, and prints no warning. -/
theorem RecMatToNode_pow (k : ℕ) :
    ∀ (fuel : ℕ) (mat : pixel_mat) (f : ℕ → ℕ → png_pixel), k < fuel →
      (∀ y x, y < 2 ^ k → x < 2 ^ k → mat_cell mat y x = some (some (f y x))) →
      RecMatToNode fuel mat (2 ^ k) (2 ^ k) = .ok ((build_tree k f).toNode, 0) := by
  induction k with
  | zero =>
    intro fuel mat f hfuel hf
    obtain ⟨n, rfl⟩ : ∃ n, fuel = n + 1 := ⟨fuel - 1, by omega⟩
    have := mat_read_of_cell mat 0 0 _ (hf 0 0 (by norm_num) (by norm_num))
    simp [RecMatToNode, this, build_tree, QTree.toNode, qn_alloc]
  | succ k ih =>
    intro fuel mat f hfuel hf
    obtain ⟨n, rfl⟩ : ∃ n, fuel = n + 1 := ⟨fuel - 1, by omega⟩
    have hpos : 0 < 2 ^ k := Nat.pow_pos (by norm_num)
    have hsplit := SplitImgIn4_ok mat (2 ^ (k + 1)) (2 ^ (k + 1)) (2 ^ k) f
      (two_pow_succ_div k) (two_pow_succ_div k)
      (fun y x hy hx => hf y x (by rw [pow_succ]; omega) (by rw [pow_succ]; omega))
    have h0 := ih n (grid_of (2 ^ k) (2 ^ k) f) f (by omega)
      (fun y x hy hx => grid_of_cell _ _ _ y x hy hx)
    have h1 := ih n (grid_of (2 ^ k) (2 ^ k) (fun y x => f y (x + 2 ^ k))) _ (by omega)
      (fun y x hy hx => grid_of_cell _ _ _ y x hy hx)
    have h2 := ih n (grid_of (2 ^ k) (2 ^ k) (fun y x => f (y + 2 ^ k) x)) _ (by omega)
      (fun y x hy hx => grid_of_cell _ _ _ y x hy hx)
    have h3 := ih n (grid_of (2 ^ k) (2 ^ k) (fun y x => f (y + 2 ^ k) (x + 2 ^ k))) _
      (by omega) (fun y x hy hx => grid_of_cell _ _ _ y x hy hx)
    have hne : ¬ (2 ^ (k + 1) = 0) := by
      have : 0 < 2 ^ (k + 1) := Nat.pow_pos (by norm_num)
      omega
    simp only [RecMatToNode, two_pow_succ_ne_one, false_and, if_false, hsplit,
      two_pow_succ_div, h0, h1, h2, h3, hne, or_self, build_tree, QTree.toNode]

/-! ## `RecNodeToMat` -/

theorem painted_allocated (out out1 : pixel_mat) (x y n : ℕ) (g : ℕ → ℕ → png_pixel)
    (h : painted out out1 x y n g) (x1 y1 n1 : ℕ) (ha : allocated out x1 y1 n1) :
    allocated out1 x1 y1 n1 := by
  intro r c h1 h2 h3 h4
  rw [h.2 r c]
  split_ifs
  · rfl
  · exact ha r c h1 h2 h3 h4

theorem allocated_quadrant (out : pixel_mat) (x y m dx dy : ℕ) (hx : dx ≤ m) (hy : dy ≤ m)
    (ha : allocated out x y (2 * m)) : allocated out (x + dx) (y + dy) m := by
  intro r c h1 h2 h3 h4
  exact ha r c (by omega) (by omega) (by omega) (by omega)

/-- Painting the four quadrants of a square one after the other paints the
square. -/
theorem painted_four (o0 o1 o2 o3 o4 : pixel_mat) (x y m : ℕ)
    (ga gb gc gd g : ℕ → ℕ → png_pixel)
    (h1 : painted o0 o1 x y m ga) (h2 : painted o1 o2 (x + m) y m gb)
    (h3 : painted o2 o3 x (y + m) m gc) (h4 : painted o3 o4 (x + m) (y + m) m gd)
    (hg : ∀ r c, r < 2 * m → c < 2 * m → g r c =
      if r < m then (if c < m then ga r c else gb r (c - m))
      else (if c < m then gc (r - m) c else gd (r - m) (c - m))) :
    painted o0 o4 x y (2 * m) g := by
  refine ⟨by rw [h4.1, h3.1, h2.1, h1.1], ?_⟩
  intro r c
  rw [h4.2 r c, h3.2 r c, h2.2 r c, h1.2 r c]
  by_cases hin : y ≤ r ∧ r < y + 2 * m ∧ x ≤ c ∧ c < x + 2 * m
  · rw [if_pos hin, hg (r - y) (c - x) (by omega) (by omega)]
    obtain ⟨i1, i2, i3, i4⟩ := hin
    by_cases hr : r - y < m <;> by_cases hc : c - x < m
    · rw [if_neg (by omega), if_neg (by omega), if_neg (by omega), if_pos (by omega),
        if_pos hr, if_pos hc]
    · rw [if_neg (by omega), if_neg (by omega), if_pos (by omega), if_pos hr, if_neg hc]
      have e1 : c - (x + m) = c - x - m := by omega
      rw [e1]
    · rw [if_neg (by omega), if_pos (by omega), if_neg hr, if_pos hc]
      have e1 : r - (y + m) = r - y - m := by omega
      rw [e1]
    · rw [if_pos (by omega), if_neg hr, if_neg hc]
      have e1 : r - (y + m) = r - y - m := by omega
      have e2 : c - (x + m) = c - x - m := by omega
      rw [e1, e2]
  · rw [if_neg hin, if_neg (by omega), if_neg (by omega), if_neg (by omega), if_neg (by omega)]

theorem painted_one (out : pixel_mat) (x y : ℕ) (p : png_pixel) (g : ℕ → ℕ → png_pixel)
    (hg : g 0 0 = p) (ha : allocated out x y 1) :
    ∃ out1, mat_write out y x p = .ok out1 ∧ painted out out1 x y 1 g := by
  obtain ⟨out1, hw, hs, hc⟩ :=
    mat_write_of_cell out y x p (ha y x (le_refl _) (by omega) (le_refl _) (by omega))
  refine ⟨out1, hw, hs, ?_⟩
  intro r c
  rw [hc r c]
  by_cases h : r = y ∧ c = x
  · rw [if_pos h, if_pos (by omega)]
    have e1 : r - y = 0 := by omega
    have e2 : c - x = 0 := by omega
    rw [e1, e2, hg]
  · rw [if_neg h, if_neg (by omega)]

/-- Drawing a leaf that is linked to itself fills the square with its pixel and
leaves the node as it is. -/
theorem RecNodeToMat_self (p : png_pixel) (j : ℕ) :
    ∀ (fuel : ℕ) (out : pixel_mat) (x y : ℕ), j < fuel → allocated out x y (2 ^ j) →
      ∃ out1, RecNodeToMat fuel out (.mk (some p) .self .self .self .self) x y (2 ^ j) (2 ^ j)
          = .ok (out1, .mk (some p) .self .self .self .self) ∧
        painted out out1 x y (2 ^ j) (fun _ _ => p) := by
  induction j with
  | zero =>
    intro fuel out x y hfuel ha
    obtain ⟨n, rfl⟩ : ∃ n, fuel = n + 1 := ⟨fuel - 1, by omega⟩
    obtain ⟨out1, hw, hp⟩ := painted_one out x y p (fun _ _ => p) rfl (by simpa using ha)
    refine ⟨out1, ?_, by simpa using hp⟩
    simp [RecNodeToMat, quad_node.value, hw]
  | succ j ih =>
    intro fuel out x y hfuel ha
    obtain ⟨n, rfl⟩ : ∃ n, fuel = n + 1 := ⟨fuel - 1, by omega⟩
    have h2 : 2 ^ (j + 1) = 2 * 2 ^ j := by rw [pow_succ]; ring
    rw [h2] at ha
    obtain ⟨o1, r1, p1⟩ := ih n out x y (by omega)
      (by simpa using allocated_quadrant out x y (2 ^ j) 0 0 (by omega) (by omega) ha)
    have a1 := painted_allocated _ _ _ _ _ _ p1 _ _ _ ha
    obtain ⟨o2, r2, p2⟩ := ih n o1 (x + 2 ^ j) y (by omega)
      (by simpa using allocated_quadrant o1 x y (2 ^ j) (2 ^ j) 0 (le_refl _) (by omega) a1)
    have a2 := painted_allocated _ _ _ _ _ _ p2 _ _ _ a1
    obtain ⟨o3, r3, p3⟩ := ih n o2 x (y + 2 ^ j) (by omega)
      (by simpa using allocated_quadrant o2 x y (2 ^ j) 0 (2 ^ j) (by omega) (le_refl _) a2)
    have a3 := painted_allocated _ _ _ _ _ _ p3 _ _ _ a2
    obtain ⟨o4, r4, p4⟩ := ih n o3 (x + 2 ^ j) (y + 2 ^ j) (by omega)
      (allocated_quadrant o3 x y (2 ^ j) (2 ^ j) (2 ^ j) (le_refl _) (le_refl _) a3)
    refine ⟨o4, ?_, ?_⟩
    · simp only [RecNodeToMat, two_pow_succ_ne_one, false_and, if_false, quad_node.q1,
        quad_node.q2, quad_node.q3, quad_node.q4, qn_ptr.isNull, call_q1, call_q2, call_q3,
        call_q4, two_pow_succ_div, r1, r2, r3, r4, Bool.false_eq_true]
    · rw [h2]
      exact painted_four out o1 o2 o3 o4 x y (2 ^ j) _ _ _ _ _ p1 p2 p3 p4
        (by intro r c _ _; split_ifs <;> rfl)

/-- Drawing a fresh leaf over more than one pixel: the leaf is first linked to
itself, and the call goes on as for a leaf that is linked to itself. -/
theorem RecNodeToMat_leaf_succ (p : png_pixel) (j fuel : ℕ) (out : pixel_mat) (x y : ℕ) :
    RecNodeToMat fuel out (.mk (some p) .NULL .NULL .NULL .NULL) x y (2 ^ (j + 1)) (2 ^ (j + 1))
      = RecNodeToMat fuel out (.mk (some p) .self .self .self .self) x y
          (2 ^ (j + 1)) (2 ^ (j + 1)) := by
  cases fuel with
  | zero => rfl
  | succ n =>
    simp only [RecNodeToMat, two_pow_succ_ne_one, false_and, if_false, quad_node.q1,
      quad_node.q2, quad_node.q3, quad_node.q4, qn_ptr.isNull, quad_node.value, and_self,
      if_true, Bool.false_eq_true]

/-- Drawing a well-formed tree of depth at most `k` over an allocated
`2^k x 2^k` square succeeds with any fuel above `k`, paints the square with the
pixels of the tree and leaves the node structure `T.rendered k`. -/
theorem RecNodeToMat_toNode (k : ℕ) :
    ∀ (T : QTree) (fuel : ℕ) (out : pixel_mat) (x y : ℕ), T.depth ≤ k → k < fuel →
      allocated out x y (2 ^ k) →
      ∃ out1, RecNodeToMat fuel out T.toNode x y (2 ^ k) (2 ^ k) = .ok (out1, T.rendered k) ∧
        painted out out1 x y (2 ^ k) (T.px k) := by
  induction k with
  | zero =>
    intro T fuel out x y hd hfuel ha
    obtain ⟨n, rfl⟩ : ∃ n, fuel = n + 1 := ⟨fuel - 1, by omega⟩
    cases T with
    | node a b c d => simp [QTree.depth] at hd
    | leaf p =>
      obtain ⟨out1, hw, hp⟩ := painted_one out x y p ((QTree.leaf p).px 0) rfl
        (by simpa using ha)
      refine ⟨out1, ?_, by simpa using hp⟩
      simp [RecNodeToMat, QTree.toNode, quad_node.value, hw, QTree.rendered]
  | succ k ih =>
    intro T fuel out x y hd hfuel ha
    cases T with
    | leaf p =>
      obtain ⟨out1, hr, hp⟩ := RecNodeToMat_self p (k + 1) fuel out x y hfuel ha
      refine ⟨out1, ?_, ?_⟩
      · simp only [QTree.toNode, QTree.rendered]
        rw [RecNodeToMat_leaf_succ, hr]
      · have : (QTree.leaf p).px (k + 1) = fun _ _ => p := by
          funext r c; rfl
        rw [this]; exact hp
    | node a b c d =>
      obtain ⟨n, rfl⟩ : ∃ n, fuel = n + 1 := ⟨fuel - 1, by omega⟩
      simp only [QTree.depth] at hd
      have h2 : 2 ^ (k + 1) = 2 * 2 ^ k := by rw [pow_succ]; ring
      rw [h2] at ha
      obtain ⟨o1, r1, p1⟩ := ih a n out x y (by omega) (by omega)
        (by simpa using allocated_quadrant out x y (2 ^ k) 0 0 (by omega) (by omega) ha)
      have a1 := painted_allocated _ _ _ _ _ _ p1 _ _ _ ha
      obtain ⟨o2, r2, p2⟩ := ih b n o1 (x + 2 ^ k) y (by omega) (by omega)
        (by simpa using allocated_quadrant o1 x y (2 ^ k) (2 ^ k) 0 (le_refl _) (by omega) a1)
      have a2 := painted_allocated _ _ _ _ _ _ p2 _ _ _ a1
      obtain ⟨o3, r3, p3⟩ := ih c n o2 x (y + 2 ^ k) (by omega) (by omega)
        (by simpa using allocated_quadrant o2 x y (2 ^ k) 0 (2 ^ k) (by omega) (le_refl _) a2)
      have a3 := painted_allocated _ _ _ _ _ _ p3 _ _ _ a2
      obtain ⟨o4, r4, p4⟩ := ih d n o3 (x + 2 ^ k) (y + 2 ^ k) (by omega) (by omega)
        (allocated_quadrant o3 x y (2 ^ k) (2 ^ k) (2 ^ k) (le_refl _) (le_refl _) a3)
      refine ⟨o4, ?_, ?_⟩
      · simp only [RecNodeToMat, two_pow_succ_ne_one, false_and, if_false, QTree.toNode,
          quad_node.q1, quad_node.q2, quad_node.q3, quad_node.q4, qn_ptr.isNull, call_q1,
          call_q2, call_q3, call_q4, two_pow_succ_div, r1, r2, r3, r4, Bool.false_eq_true,
          QTree.rendered]
      · rw [h2]
        exact painted_four out o1 o2 o3 o4 x y (2 ^ k) _ _ _ _ _ p1 p2 p3 p4
          (by intro r c _ _; rfl)

theorem build_tree_depth (k : ℕ) (f : ℕ → ℕ → png_pixel) : (build_tree k f).depth = k := by
  induction k generalizing f with
  | zero => rfl
  | succ k ih => simp [build_tree, QTree.depth, ih]

theorem build_tree_px (k : ℕ) :
    ∀ (f : ℕ → ℕ → png_pixel) (y x : ℕ), y < 2 ^ k → x < 2 ^ k →
      (build_tree k f).px k y x = f y x := by
  induction k with
  | zero =>
    intro f y x hy hx
    have e1 : y = 0 := by omega
    have e2 : x = 0 := by omega
    subst e1 e2
    rfl
  | succ k ih =>
    intro f y x hy hx
    have h2 : 2 ^ (k + 1) = 2 * 2 ^ k := by rw [pow_succ]; ring
    simp only [build_tree, QTree.px]
    by_cases h1 : y < 2 ^ k <;> by_cases h3 : x < 2 ^ k
    · rw [if_pos h1, if_pos h3, ih f y x h1 h3]
    · rw [if_pos h1, if_neg h3, ih _ y (x - 2 ^ k) h1 (by omega)]
      congr 1; omega
    · rw [if_neg h1, if_pos h3, ih _ (y - 2 ^ k) x (by omega) h3]
      congr 1; omega
    · rw [if_neg h1, if_neg h3, ih _ (y - 2 ^ k) (x - 2 ^ k) (by omega) (by omega)]
      congr 1 <;> omega

theorem build_tree_rendered (k : ℕ) (f : ℕ → ℕ → png_pixel) :
    (build_tree k f).rendered k = (build_tree k f).toNode := by
  induction k generalizing f with
  | zero => rfl
  | succ k ih => simp [build_tree, QTree.rendered, QTree.toNode, ih]

/-- The function `QuadToMatrix` on a well-formed tree of depth at most `k`, for
a `2^k x 2^k` output: the grid of the pixels of the tree. -/
theorem QuadToMatrix_toNode (k : ℕ) (T : QTree) (fuel : ℕ) (hd : T.depth ≤ k) (hf : k < fuel) :
    QuadToMatrix fuel ⟨T.toNode⟩ (2 ^ k) (2 ^ k)
      = .ok (grid_of (2 ^ k) (2 ^ k) (T.px k), ⟨T.rendered k⟩) := by
  obtain ⟨mat, hm, hs, hc⟩ := image_alloc_square (2 ^ k)
  have ha : allocated mat 0 0 (2 ^ k) := by
    intro r c _ h2 _ h4
    rw [hc r c (by omega) (by omega)]; rfl
  obtain ⟨out1, hr, hp⟩ := RecNodeToMat_toNode k T fuel mat 0 0 hd hf ha
  have heq : out1 = grid_of (2 ^ k) (2 ^ k) (T.px k) := by
    apply eq_grid_of
    · rw [hp.1, hs]
    · intro y x hy hx
      rw [hp.2 y x, if_pos (by omega)]
      rfl
  simp only [QuadToMatrix, hm, hr, heq]

/-! ## Uniform and contrasted grids -/

theorem raw_distance_self (p : png_pixel) : raw_distance p p = 0 := by
  simp [raw_distance, channel_diff]

theorem PixelAverage_four_channel (channel : png_pixel → Fin 256) (p1 p2 p3 p4 : png_pixel) :
    ((c_to_byte (f32 (channel_sum channel [p1, p2, p3, p4] 4 / f32 ((4 : ℕ) : ℚ))) : Fin 256) : ℕ)
      = ((channel p1 : ℕ) + (channel p2 : ℕ) + (channel p3 : ℕ) + (channel p4 : ℕ)) / 4 := by
  have := PixelAverage_channel channel [p1, p2, p3, p4] 4 (by norm_num) (by simp) (by norm_num)
  rw [this]
  simp [channel_total]
  congr 1
  omega

/-- The average of four pixels, channel by channel. -/
theorem PixelAverage_four (p1 p2 p3 p4 : png_pixel) :
    ((PixelAverage [p1, p2, p3, p4] 4).red : ℕ)
        = ((p1.red : ℕ) + (p2.red : ℕ) + (p3.red : ℕ) + (p4.red : ℕ)) / 4 ∧
    ((PixelAverage [p1, p2, p3, p4] 4).green : ℕ)
        = ((p1.green : ℕ) + (p2.green : ℕ) + (p3.green : ℕ) + (p4.green : ℕ)) / 4 ∧
    ((PixelAverage [p1, p2, p3, p4] 4).blue : ℕ)
        = ((p1.blue : ℕ) + (p2.blue : ℕ) + (p3.blue : ℕ) + (p4.blue : ℕ)) / 4 ∧
    ((PixelAverage [p1, p2, p3, p4] 4).alpha : ℕ)
        = ((p1.alpha : ℕ) + (p2.alpha : ℕ) + (p3.alpha : ℕ) + (p4.alpha : ℕ)) / 4 :=
  ⟨PixelAverage_four_channel png_pixel.red p1 p2 p3 p4,
    PixelAverage_four_channel png_pixel.green p1 p2 p3 p4,
    PixelAverage_four_channel png_pixel.blue p1 p2 p3 p4,
    PixelAverage_four_channel png_pixel.alpha p1 p2 p3 p4⟩

theorem PixelAverage_same (p : png_pixel) : PixelAverage [p, p, p, p] 4 = p := by
  obtain ⟨h1, h2, h3, h4⟩ := PixelAverage_four p p p p
  cases hp : PixelAverage [p, p, p, p] 4 with
  | mk r b g a =>
    rw [hp] at h1 h2 h3 h4
    cases p with
    | mk r1 b1 g1 a1 =>
      simp only at h1 h2 h3 h4
      have e1 : r = r1 := Fin.ext (by omega)
      have e2 : g = g1 := Fin.ext (by omega)
      have e3 : b = b1 := Fin.ext (by omega)
      have e4 : a = a1 := Fin.ext (by omega)
      rw [e1, e2, e3, e4]

/-- C2: Build/Render round trip.  For every `k` and every `2^k x 2^k` grid `g`,
`QuadToMatrix` of `MatrixToQuad g` (no pruning in between) returns a grid of the
same dimensions in which every cell equals the cell of `g`; it is `g` itself,
and the tree is left as it was built. -/
theorem C2_build_render_round_trip (k : ℕ) (g : pixel_mat) (fuel : ℕ)
    (hg : is_grid (2 ^ k) (2 ^ k) g = true) (hfuel : k < fuel) :
    ∃ qt out,
      MatrixToQuad fuel g (2 ^ k) (2 ^ k) = .ok (qt, 0) ∧
      QuadToMatrix fuel qt (2 ^ k) (2 ^ k) = .ok (out, qt) ∧
      is_grid (2 ^ k) (2 ^ k) out = true ∧
      (∀ row col, row < 2 ^ k → col < 2 ^ k → mat_cell out row col = mat_cell g row col) ∧
      out = g := by
  have hspec := is_grid_spec _ _ g hg
  have hb := RecMatToNode_pow k fuel g (mat_px g) hfuel hspec.2
  have hq := QuadToMatrix_toNode k (build_tree k (mat_px g)) fuel
    (by rw [build_tree_depth]) hfuel
  rw [build_tree_rendered] at hq
  have hout : grid_of (2 ^ k) (2 ^ k) ((build_tree k (mat_px g)).px k) = g := by
    symm
    apply eq_grid_of _ _ _ g hspec.1
    intro y x hy hx
    rw [hspec.2 y x hy hx, build_tree_px k _ y x hy hx]
  refine ⟨⟨(build_tree k (mat_px g)).toNode⟩, g, ?_, ?_, hg, fun _ _ _ _ => rfl, rfl⟩
  · simp only [MatrixToQuad, hb]
  · rw [hq, hout]

/-- Witness of C2: a 2x2 grid of four different pixels. -/
theorem C2_build_render_round_trip_witness :
    ∃ qt out,
      MatrixToQuad 2 example_grid_2x2 (2 ^ 1) (2 ^ 1) = .ok (qt, 0) ∧
      QuadToMatrix 2 qt (2 ^ 1) (2 ^ 1) = .ok (out, qt) ∧
      is_grid (2 ^ 1) (2 ^ 1) out = true ∧
      (∀ row col, row < 2 ^ 1 → col < 2 ^ 1 →
        mat_cell out row col = mat_cell example_grid_2x2 row col) ∧
      out = example_grid_2x2 :=
  C2_build_render_round_trip 1 example_grid_2x2 2 (by decide) (by norm_num)

/-- C4: idempotence of pruning.  For every well-formed quadtree `T` and every
threshold `t`, `PruneBranches` returns a tree `T1`, and `PruneBranches` with the
same threshold on `T1` returns `T1` again, node for node and value for value. -/
theorem C4_prune_idempotent (T : quad_node) (t : ℚ) (fuel : ℕ) (hwf : WellFormed T)
    (hfuel : T.depth < fuel) :
    ∃ T1, PruneBranches fuel T t = .ok T1 ∧ PruneBranches fuel T1 t = .ok T1 := by
  obtain ⟨Q, rfl⟩ := (wellFormed_iff T).mp hwf
  rw [toNode_depth] at hfuel
  refine ⟨(Q.prune t).toNode, PruneBranches_toNode t Q fuel hfuel, ?_⟩
  have := PruneBranches_toNode t (Q.prune t) fuel
    (lt_of_le_of_lt (prune_depth_le t Q) hfuel)
  rw [prune_idem] at this
  exact this

/-- Witness of C4: a tree of depth 2, threshold 0.0005. -/
theorem C4_prune_idempotent_witness :
    ∃ T1, PruneBranches 3 example_tree.toNode (1 / 2000) = .ok T1 ∧
      PruneBranches 3 T1 (1 / 2000) = .ok T1 :=
  C4_prune_idempotent example_tree.toNode (1 / 2000) 3 (wellFormed_toNode _) (by decide)

/-- C5: merge rule.  For an internal node whose four children are leaves once
pruned, with leaf values `p1..p4`, `avg = PixelAverage [p1, p2, p3, p4] 4` and
`v = PixelVariance avg [p1, p2, p3, p4] 4` (the mean of the four distances to
`avg`): if `v < threshold`, `PruneBranches` turns the node into a leaf holding
exactly `avg` with no children; otherwise it leaves the node internal with the
same four leaf children and unchanged values. -/
theorem C5_merge_rule (a b c d : quad_node) (p1 p2 p3 p4 : png_pixel) (t : ℚ) (fuel : ℕ)
    (ha : PruneBranches fuel a t = .ok (.mk (some p1) .NULL .NULL .NULL .NULL))
    (hb : PruneBranches fuel b t = .ok (.mk (some p2) .NULL .NULL .NULL .NULL))
    (hc : PruneBranches fuel c t = .ok (.mk (some p3) .NULL .NULL .NULL .NULL))
    (hd : PruneBranches fuel d t = .ok (.mk (some p4) .NULL .NULL .NULL .NULL)) :
    PixelVariance (PixelAverage [p1, p2, p3, p4] 4) [p1, p2, p3, p4] 4
        = (PixelColorDistance (PixelAverage [p1, p2, p3, p4] 4) p1
          + PixelColorDistance (PixelAverage [p1, p2, p3, p4] 4) p2
          + PixelColorDistance (PixelAverage [p1, p2, p3, p4] 4) p3
          + PixelColorDistance (PixelAverage [p1, p2, p3, p4] 4) p4) / 4 ∧
    (PixelVariance (PixelAverage [p1, p2, p3, p4] 4) [p1, p2, p3, p4] 4 < t →
      PruneBranches (fuel + 1) (.mk none (.child a) (.child b) (.child c) (.child d)) t
        = .ok (.mk (some (PixelAverage [p1, p2, p3, p4] 4)) .NULL .NULL .NULL .NULL)) ∧
    (¬ PixelVariance (PixelAverage [p1, p2, p3, p4] 4) [p1, p2, p3, p4] 4 < t →
      PruneBranches (fuel + 1) (.mk none (.child a) (.child b) (.child c) (.child d)) t
        = .ok (.mk none (.child (.mk (some p1) .NULL .NULL .NULL .NULL))
            (.child (.mk (some p2) .NULL .NULL .NULL .NULL))
            (.child (.mk (some p3) .NULL .NULL .NULL .NULL))
            (.child (.mk (some p4) .NULL .NULL .NULL .NULL)))) := by
  refine ⟨PixelVariance_four_mean _ p1 p2 p3 p4, ?_, ?_⟩
  · intro hv
    simp only [PruneBranches, quad_node.q1, quad_node.q2, quad_node.q3, quad_node.q4,
      qn_ptr.isNull, call_q1, call_q2, call_q3, call_q4, ha, hb, hc, hd, ptr_value,
      quad_node.value, hv]
    simp
  · intro hv
    simp only [PruneBranches, quad_node.q1, quad_node.q2, quad_node.q3, quad_node.q4,
      qn_ptr.isNull, call_q1, call_q2, call_q3, call_q4, ha, hb, hc, hd, ptr_value,
      quad_node.value, hv]
    simp

/-- Witness of C5: four leaf children holding the same pixel. -/
theorem C5_merge_rule_witness :
    PixelVariance (PixelAverage [example_pixel, example_pixel, example_pixel, example_pixel] 4)
        [example_pixel, example_pixel, example_pixel, example_pixel] 4
        = (PixelColorDistance
            (PixelAverage [example_pixel, example_pixel, example_pixel, example_pixel] 4)
            example_pixel
          + PixelColorDistance
            (PixelAverage [example_pixel, example_pixel, example_pixel, example_pixel] 4)
            example_pixel
          + PixelColorDistance
            (PixelAverage [example_pixel, example_pixel, example_pixel, example_pixel] 4)
            example_pixel
          + PixelColorDistance
            (PixelAverage [example_pixel, example_pixel, example_pixel, example_pixel] 4)
            example_pixel) / 4 ∧
    (PixelVariance (PixelAverage [example_pixel, example_pixel, example_pixel, example_pixel] 4)
        [example_pixel, example_pixel, example_pixel, example_pixel] 4 < 1 / 2000 →
      PruneBranches (1 + 1)
          (.mk none (.child (qn_alloc (some example_pixel)))
            (.child (qn_alloc (some example_pixel))) (.child (qn_alloc (some example_pixel)))
            (.child (qn_alloc (some example_pixel)))) (1 / 2000)
        = .ok (.mk (some
            (PixelAverage [example_pixel, example_pixel, example_pixel, example_pixel] 4))
            .NULL .NULL .NULL .NULL)) ∧
    (¬ PixelVariance
          (PixelAverage [example_pixel, example_pixel, example_pixel, example_pixel] 4)
          [example_pixel, example_pixel, example_pixel, example_pixel] 4 < 1 / 2000 →
      PruneBranches (1 + 1)
          (.mk none (.child (qn_alloc (some example_pixel)))
            (.child (qn_alloc (some example_pixel))) (.child (qn_alloc (some example_pixel)))
            (.child (qn_alloc (some example_pixel)))) (1 / 2000)
        = .ok (.mk none (.child (.mk (some example_pixel) .NULL .NULL .NULL .NULL))
            (.child (.mk (some example_pixel) .NULL .NULL .NULL .NULL))
            (.child (.mk (some example_pixel) .NULL .NULL .NULL .NULL))
            (.child (.mk (some example_pixel) .NULL .NULL .NULL .NULL)))) :=
  C5_merge_rule (qn_alloc (some example_pixel)) (qn_alloc (some example_pixel))
    (qn_alloc (some example_pixel)) (qn_alloc (some example_pixel))
    example_pixel example_pixel example_pixel example_pixel (1 / 2000) 1 rfl rfl rfl rfl

/-- C8: pruning only removes structure.  For every well-formed quadtree `T` and
threshold `t`, `PruneBranches` returns a tree `T1` such that every position that
is an internal node in `T1` is an internal node in `T`, every position that is a
leaf in both holds the same value in both, and the node count and the depth of
`T1` are at most those of `T`. -/
theorem C8_prune_only_removes (T : quad_node) (t : ℚ) (fuel : ℕ) (hwf : WellFormed T)
    (hfuel : T.depth < fuel) :
    ∃ T1, PruneBranches fuel T t = .ok T1 ∧ WellFormed T1 ∧
      (∀ path n1, T1.at path = some n1 → n1.isInternal = true →
        ∃ n, T.at path = some n ∧ n.isInternal = true) ∧
      (∀ path n n1, T.at path = some n → T1.at path = some n1 → n.isLeaf = true →
        n1.isLeaf = true → n1.value = n.value) ∧
      T1.count ≤ T.count ∧ T1.depth ≤ T.depth := by
  obtain ⟨Q, rfl⟩ := (wellFormed_iff T).mp hwf
  rw [toNode_depth] at hfuel
  refine ⟨(Q.prune t).toNode, PruneBranches_toNode t Q fuel hfuel, wellFormed_toNode _,
    ?_, ?_, ?_, ?_⟩
  · intro path n1 h1 hint
    rw [toNode_at] at h1
    cases hS : (Q.prune t).at path with
    | none => rw [hS] at h1; simp at h1
    | some S1 =>
      rw [hS] at h1
      simp only [Option.map_some', Option.some.injEq] at h1
      subst h1
      obtain ⟨S, hS0, rfl⟩ := prune_at t path Q S1 hS
      obtain ⟨a1, b1, c1, d1, hnode⟩ := (toNode_isInternal _).mp hint
      obtain ⟨a, b, c, d, rfl, _⟩ := prune_eq_node t S a1 b1 c1 d1 hnode
      refine ⟨(QTree.node a b c d).toNode, ?_, rfl⟩
      rw [toNode_at, hS0]; rfl
  · intro path n n1 h0 h1 hl0 hl1
    rw [toNode_at] at h0 h1
    cases hS : (Q.prune t).at path with
    | none => rw [hS] at h1; simp at h1
    | some S1 =>
      rw [hS] at h1
      simp only [Option.map_some', Option.some.injEq] at h1
      subst h1
      obtain ⟨S, hS0, rfl⟩ := prune_at t path Q S1 hS
      rw [hS0] at h0
      simp only [Option.map_some', Option.some.injEq] at h0
      subst h0
      obtain ⟨p, rfl⟩ := (toNode_isLeaf _).mp hl0
      rfl
  · rw [toNode_count, toNode_count]; exact prune_count_le t Q
  · rw [toNode_depth, toNode_depth]; exact prune_depth_le t Q

/-- Witness of C8: a tree of depth 2, threshold 0.0005. -/
theorem C8_prune_only_removes_witness :
    ∃ T1, PruneBranches 3 example_tree.toNode (1 / 2000) = .ok T1 ∧ WellFormed T1 ∧
      (∀ path n1, T1.at path = some n1 → n1.isInternal = true →
        ∃ n, example_tree.toNode.at path = some n ∧ n.isInternal = true) ∧
      (∀ path n n1, example_tree.toNode.at path = some n → T1.at path = some n1 →
        n.isLeaf = true → n1.isLeaf = true → n1.value = n.value) ∧
      T1.count ≤ example_tree.toNode.count ∧ T1.depth ≤ example_tree.toNode.depth :=
  C8_prune_only_removes example_tree.toNode (1 / 2000) 3 (wellFormed_toNode _) (by decide)

theorem channel_total_replicate (channel : png_pixel → Fin 256) (p : png_pixel) (n : ℕ) :
    channel_total channel (List.replicate n p) = n * ((channel p : Fin 256) : ℕ) := by
  induction n with
  | zero => simp [channel_total]
  | succ n ih =>
    simp only [channel_total, List.replicate_succ, List.map_cons, List.sum_cons] at ih ⊢
    rw [ih]; ring

/-- On `n >= 2^24` pixels whose channel is 1 the `float` sum is `2^24`. -/
theorem channel_sum_replicate_saturates (channel : png_pixel → Fin 256) (p : png_pixel)
    (hch : ((channel p : Fin 256) : ℕ) = 1) (n : ℕ) (hn : 2 ^ 24 ≤ n) :
    channel_sum channel (List.replicate n p) n = 16777216 := by
  unfold channel_sum
  rw [List.take_replicate, Nat.min_self, foldl_replicate_saturates channel p hch n,
    Nat.min_eq_right hn]
  norm_num

theorem c_to_byte_saturated : c_to_byte (f32 (16777216 / f32 ((2 ^ 25 : ℕ) : ℚ))) = 0 := by
  have h1 : f32 ((2 ^ 25 : ℕ) : ℚ) = 33554432 := by
    have := flp_exact 24 1 25 (by norm_num)
    norm_num [f32] at this ⊢
    exact this
  have h2 : f32 ((16777216 : ℚ) / 33554432) = 1 / 2 := by
    have := flp_exact 24 1 (-1) (by norm_num)
    norm_num [f32] at this ⊢
    exact this
  rw [h1, h2]
  have hfl : ⌊(2⁻¹ : ℚ)⌋ = 0 := by
    rw [Int.floor_eq_iff]; norm_num
  apply Fin.ext
  unfold c_to_byte
  simp [hfl]

/-- C6, as stated, fails: on a sequence of `2^25` pixels whose red channel is 1
the `float` accumulator stops at `2^24`, and `PixelAverage` returns red 0, not
`floor (2^25 / 2^25) = 1`. -/
theorem C6_counterexample :
    ((PixelAverage (List.replicate (2 ^ 25) ⟨1, 1, 1, 1⟩) (2 ^ 25)).red : ℕ) = 0 ∧
      channel_total png_pixel.red (List.replicate (2 ^ 25) ⟨1, 1, 1, 1⟩) / 2 ^ 25 = 1 := by
  constructor
  · have h := channel_sum_replicate_saturates png_pixel.red ⟨1, 1, 1, 1⟩ rfl (2 ^ 25)
      (Nat.pow_le_pow_right (by norm_num) (by norm_num))
    show ((c_to_byte (f32 (channel_sum png_pixel.red (List.replicate (2 ^ 25) ⟨1, 1, 1, 1⟩)
      (2 ^ 25) / f32 ((2 ^ 25 : ℕ) : ℚ))) : Fin 256) : ℕ) = 0
    rw [h, c_to_byte_saturated]
    rfl
  · rw [channel_total_replicate]
    show 2 ^ 25 * 1 / 2 ^ 25 = 1
    rw [Nat.mul_one]
    exact Nat.div_self (Nat.pow_pos (by norm_num))

/-- C6, amended: for every sequence of `count` pixels with `1 <= count` and
`255 * count < 2^24` (at most 65793 pixels, so that the `float` sums are exact),
`PixelAverage` returns the pixel whose red, green, blue and alpha channels are
each `floor (sum of that channel / count)`; four pixels whose channels are
0, 0, 0, 255 average to 63 in every channel. -/
theorem C6_average_truncates (l : List png_pixel) (count : ℕ) (hc : 1 ≤ count)
    (hl : count = l.length) (hb : 255 * count < 2 ^ 24) :
    (((PixelAverage l count).red : ℕ) = channel_total png_pixel.red l / count ∧
      ((PixelAverage l count).green : ℕ) = channel_total png_pixel.green l / count ∧
      ((PixelAverage l count).blue : ℕ) = channel_total png_pixel.blue l / count ∧
      ((PixelAverage l count).alpha : ℕ) = channel_total png_pixel.alpha l / count) ∧
    PixelAverage [⟨0, 0, 0, 0⟩, ⟨0, 0, 0, 0⟩, ⟨0, 0, 0, 0⟩, ⟨255, 255, 255, 255⟩] 4
      = ⟨63, 63, 63, 63⟩ := by
  have htake : l.take count = l := by rw [hl]; exact List.take_length l
  have key : ∀ channel : png_pixel → Fin 256,
      ((c_to_byte (f32 (channel_sum channel l count / f32 (count : ℚ))) : Fin 256) : ℕ)
        = channel_total channel l / count := by
    intro channel
    have := PixelAverage_channel channel l count hc (by omega) hb
    rw [htake] at this
    exact this
  refine ⟨⟨key _, key _, key _, key _⟩, ?_⟩
  obtain ⟨h1, h2, h3, h4⟩ := PixelAverage_four
    ⟨0, 0, 0, 0⟩ ⟨0, 0, 0, 0⟩ ⟨0, 0, 0, 0⟩ ⟨255, 255, 255, 255⟩
  cases hp : PixelAverage
    [⟨0, 0, 0, 0⟩, ⟨0, 0, 0, 0⟩, ⟨0, 0, 0, 0⟩, ⟨255, 255, 255, 255⟩] 4 with
  | mk r b g a =>
    rw [hp] at h1 h2 h3 h4
    simp only [Fin.val_zero, Fin.val_natCast] at h1 h2 h3 h4
    have e1 : r = 63 := Fin.ext (by rw [h1]; rfl)
    have e2 : g = 63 := Fin.ext (by rw [h2]; rfl)
    have e3 : b = 63 := Fin.ext (by rw [h3]; rfl)
    have e4 : a = 63 := Fin.ext (by rw [h4]; rfl)
    rw [e1, e2, e3, e4]

/-- Witness of C6: three pixels. -/
theorem C6_average_truncates_witness :
    (((PixelAverage [⟨1, 2, 3, 4⟩, ⟨2, 3, 4, 5⟩, ⟨5, 5, 5, 5⟩] 3).red : ℕ)
        = channel_total png_pixel.red [⟨1, 2, 3, 4⟩, ⟨2, 3, 4, 5⟩, ⟨5, 5, 5, 5⟩] / 3 ∧
      ((PixelAverage [⟨1, 2, 3, 4⟩, ⟨2, 3, 4, 5⟩, ⟨5, 5, 5, 5⟩] 3).green : ℕ)
        = channel_total png_pixel.green [⟨1, 2, 3, 4⟩, ⟨2, 3, 4, 5⟩, ⟨5, 5, 5, 5⟩] / 3 ∧
      ((PixelAverage [⟨1, 2, 3, 4⟩, ⟨2, 3, 4, 5⟩, ⟨5, 5, 5, 5⟩] 3).blue : ℕ)
        = channel_total png_pixel.blue [⟨1, 2, 3, 4⟩, ⟨2, 3, 4, 5⟩, ⟨5, 5, 5, 5⟩] / 3 ∧
      ((PixelAverage [⟨1, 2, 3, 4⟩, ⟨2, 3, 4, 5⟩, ⟨5, 5, 5, 5⟩] 3).alpha : ℕ)
        = channel_total png_pixel.alpha [⟨1, 2, 3, 4⟩, ⟨2, 3, 4, 5⟩, ⟨5, 5, 5, 5⟩] / 3) ∧
    PixelAverage [⟨0, 0, 0, 0⟩, ⟨0, 0, 0, 0⟩, ⟨0, 0, 0, 0⟩, ⟨255, 255, 255, 255⟩] 4
      = ⟨63, 63, 63, 63⟩ :=
  C6_average_truncates [⟨1, 2, 3, 4⟩, ⟨2, 3, 4, 5⟩, ⟨5, 5, 5, 5⟩] 3 (by norm_num) rfl
    (by norm_num)

/-- C7: distance normalization.  For all pixels `a` and `b`,
`PixelColorDistance a b` is exactly the sum of the four squared channel
differences divided by 1048576; the distance of `(0,0,0,0)` and
`(255,255,255,255)` is `260100 / 1048576`; and the result lies in `[0, 1]`. -/
theorem C7_distance_normalized (a b : png_pixel) :
    PixelColorDistance a b
        = ((((a.red : ℕ) : ℚ) - ((b.red : ℕ) : ℚ)) ^ 2
          + (((a.green : ℕ) : ℚ) - ((b.green : ℕ) : ℚ)) ^ 2
          + (((a.blue : ℕ) : ℚ) - ((b.blue : ℕ) : ℚ)) ^ 2
          + (((a.alpha : ℕ) : ℚ) - ((b.alpha : ℕ) : ℚ)) ^ 2) / 1048576 ∧
    PixelColorDistance ⟨0, 0, 0, 0⟩ ⟨255, 255, 255, 255⟩ = 260100 / 1048576 ∧
    0 ≤ PixelColorDistance a b ∧ PixelColorDistance a b ≤ 1 := by
  have h0 : (0 : ℚ) ≤ (raw_distance a b : ℚ) := by exact_mod_cast raw_distance_nonneg a b
  have h1 : (raw_distance a b : ℚ) ≤ 260100 := by exact_mod_cast raw_distance_le a b
  refine ⟨?_, ?_, ?_, ?_⟩
  · rw [PixelColorDistance_eq]
    simp only [raw_distance, channel_diff]
    push_cast
    rfl
  · rw [PixelColorDistance_eq]
    have : raw_distance ⟨0, 0, 0, 0⟩ ⟨255, 255, 255, 255⟩ = 260100 := by decide
    rw [this]
    norm_num
  · rw [PixelColorDistance_eq]
    positivity
  · rw [PixelColorDistance_eq, div_le_one (by norm_num)]
    linarith

theorem RecMatToNode_zero_width (fuel : ℕ) :
    ∀ (mat : pixel_mat) (height : ℕ), RecMatToNode fuel mat 0 height = .error .fuel := by
  induction fuel with
  | zero => intro mat height; rfl
  | succ n ih =>
    intro mat height
    have hs : SplitImgIn4 mat 0 height = .ok
        ⟨List.replicate (height / 2) none, List.replicate (height / 2) none,
          List.replicate (height / 2) none, List.replicate (height / 2) none⟩ := by
      simp [SplitImgIn4, image_alloc, c_for, bind, Except.bind]
    simp only [RecMatToNode, hs, Nat.zero_div, ih]
    simp

/-- C9 on the code: once `RecMatToNode` is entered with width 0 it never
returns, whatever the fuel: it prints the warning, splits and recurses again
with width 0.  The 1x2 grid (width 1, height 2) reaches that state after one
split, so `MatrixToQuad` never returns on it and signals no failure. -/
theorem C9_zero_width_never_stops :
    (∀ (fuel : ℕ) (mat : pixel_mat) (height : ℕ),
      RecMatToNode fuel mat 0 height = .error .fuel) ∧
    (∀ fuel : ℕ, MatrixToQuad fuel example_grid_1x2 1 2 = .error .fuel) := by
  refine ⟨RecMatToNode_zero_width, ?_⟩
  intro fuel
  cases fuel with
  | zero => rfl
  | succ n =>
    have hs : SplitImgIn4 example_grid_1x2 1 2 = .ok ⟨[none], [none], [none], [none]⟩ := by
      simp [SplitImgIn4, image_alloc, c_for, bind, Except.bind]
    have h0 := RecMatToNode_zero_width n [none] 1
    simp only [MatrixToQuad, RecMatToNode, hs]
    simp [h0]

theorem isInternal_value (n : quad_node) (h : n.isInternal = true) : n.value = none := by
  cases n with
  | mk v a b c d =>
    cases v with
    | none => rfl
    | some p => simp [quad_node.isInternal] at h

/-- After the four recursive calls, a child without a value stops the merge. -/
theorem PruneBranches_keeps (a b c d a1 b1 c1 d1 : quad_node) (t : ℚ) (fuel : ℕ)
    (ha : PruneBranches fuel a t = .ok a1) (hb : PruneBranches fuel b t = .ok b1)
    (hc : PruneBranches fuel c t = .ok c1) (hd : PruneBranches fuel d t = .ok d1)
    (hv : a1.value = none ∨ b1.value = none ∨ c1.value = none ∨ d1.value = none) :
    PruneBranches (fuel + 1) (.mk none (.child a) (.child b) (.child c) (.child d)) t
      = .ok (.mk none (.child a1) (.child b1) (.child c1) (.child d1)) := by
  simp only [PruneBranches, quad_node.q1, quad_node.q2, quad_node.q3, quad_node.q4,
    qn_ptr.isNull, call_q1, call_q2, call_q3, call_q4, ha, hb, hc, hd, ptr_value]
  cases h1 : a1.value <;> cases h2 : b1.value <;> cases h3 : c1.value <;>
    cases h4 : d1.value <;> simp_all

/-- The variance of four pixels about any pixel is not negative. -/
theorem PixelVariance_four_nonneg (avg p1 p2 p3 p4 : png_pixel) :
    0 ≤ PixelVariance avg [p1, p2, p3, p4] 4 := by
  rw [PixelVariance_four]
  have a1 := raw_distance_nonneg avg p1
  have a2 := raw_distance_nonneg avg p2
  have a3 := raw_distance_nonneg avg p3
  have a4 := raw_distance_nonneg avg p4
  have : (0 : ℚ) ≤ ((raw_distance avg p1 + raw_distance avg p2 + raw_distance avg p3
      + raw_distance avg p4 : ℤ) : ℚ) := by exact_mod_cast (by omega)
  positivity

/-- With a variance that is not below the threshold, four leaves stay. -/
theorem PruneBranches_four_leaves_keep (p1 p2 p3 p4 : png_pixel) (t : ℚ) (fuel : ℕ)
    (hfuel : 1 < fuel)
    (hv : ¬ PixelVariance (PixelAverage [p1, p2, p3, p4] 4) [p1, p2, p3, p4] 4 < t) :
    PruneBranches fuel (four_leaves p1 p2 p3 p4).toNode t
      = .ok (four_leaves p1 p2 p3 p4).toNode := by
  have h := PruneBranches_toNode t (four_leaves p1 p2 p3 p4) fuel
    (by simp [four_leaves, QTree.depth]; omega)
  have hp : (four_leaves p1 p2 p3 p4).prune t = four_leaves p1 p2 p3 p4 := by
    unfold four_leaves
    rw [prune_node_of_leaves t (.leaf p1) (.leaf p2) (.leaf p3) (.leaf p4) p1 p2 p3 p4
      rfl rfl rfl rfl]
    unfold merge_four
    rw [if_neg hv]
  rw [hp] at h
  exact h

/-- C12: heterogeneous children never merge.  For every internal node and every
threshold, if after pruning its four children at least one child is still
internal, `PruneBranches` leaves the node internal with exactly those four
pruned children, whatever the threshold and the colours below. -/
theorem C12_heterogeneous_never_merges (a b c d a1 b1 c1 d1 : quad_node) (t : ℚ) (fuel : ℕ)
    (ha : PruneBranches fuel a t = .ok a1) (hb : PruneBranches fuel b t = .ok b1)
    (hc : PruneBranches fuel c t = .ok c1) (hd : PruneBranches fuel d t = .ok d1)
    (hint : a1.isInternal = true ∨ b1.isInternal = true ∨ c1.isInternal = true ∨
      d1.isInternal = true) :
    PruneBranches (fuel + 1) (.mk none (.child a) (.child b) (.child c) (.child d)) t
      = .ok (.mk none (.child a1) (.child b1) (.child c1) (.child d1)) := by
  apply PruneBranches_keeps a b c d a1 b1 c1 d1 t fuel ha hb hc hd
  rcases hint with h | h | h | h
  · exact Or.inl (isInternal_value _ h)
  · exact Or.inr (Or.inl (isInternal_value _ h))
  · exact Or.inr (Or.inr (Or.inl (isInternal_value _ h)))
  · exact Or.inr (Or.inr (Or.inr (isInternal_value _ h)))

/-- Witness of C12: the first child is an internal node of four equal leaves
that threshold 0 does not merge; the other three children are leaves of the
same pixel. -/
theorem C12_heterogeneous_never_merges_witness :
    PruneBranches (2 + 1)
        (.mk none
          (.child (four_leaves example_pixel example_pixel example_pixel example_pixel).toNode)
          (.child (qn_alloc (some example_pixel))) (.child (qn_alloc (some example_pixel)))
          (.child (qn_alloc (some example_pixel)))) 0
      = .ok (.mk none
          (.child (four_leaves example_pixel example_pixel example_pixel example_pixel).toNode)
          (.child (qn_alloc (some example_pixel))) (.child (qn_alloc (some example_pixel)))
          (.child (qn_alloc (some example_pixel)))) :=
  C12_heterogeneous_never_merges _ _ _ _ _ _ _ _ 0 2
    (PruneBranches_four_leaves_keep example_pixel example_pixel example_pixel example_pixel 0 2
      (by norm_num) (not_lt.mpr (PixelVariance_four_nonneg _ _ _ _ _)))
    rfl rfl rfl (Or.inl rfl)

/-- C13: block fill of a merged leaf.  For every leaf node with value `p`, every
`k`, every origin `(x, y)` and every output matrix whose cells of the
`2^k x 2^k` region at that origin are allocated, `RecNodeToMat` returns a
matrix in which every cell of the region holds `p` and every cell outside the
region has the value it had before the call. -/
theorem C13_leaf_block_fill (p : png_pixel) (k : ℕ) (x y : ℕ) (out : pixel_mat) (fuel : ℕ)
    (hk : 1 ≤ k) (ha : allocated out x y (2 ^ k)) (hfuel : k < fuel) :
    ∃ out1 node1,
      RecNodeToMat fuel out (.mk (some p) .NULL .NULL .NULL .NULL) x y (2 ^ k) (2 ^ k)
        = .ok (out1, node1) ∧
      (∀ r c, y ≤ r → r < y + 2 ^ k → x ≤ c → c < x + 2 ^ k →
        mat_cell out1 r c = some (some p)) ∧
      (∀ r c, ¬ (y ≤ r ∧ r < y + 2 ^ k ∧ x ≤ c ∧ c < x + 2 ^ k) →
        mat_cell out1 r c = mat_cell out r c) ∧
      mat_shape out1 = mat_shape out := by
  obtain ⟨j, rfl⟩ : ∃ j, k = j + 1 := ⟨k - 1, by omega⟩
  obtain ⟨out1, hr, hs, hc⟩ := RecNodeToMat_self p (j + 1) fuel out x y hfuel ha
  refine ⟨out1, .mk (some p) .self .self .self .self, ?_, ?_, ?_, hs⟩
  · rw [RecNodeToMat_leaf_succ]; exact hr
  · intro r c h1 h2 h3 h4
    rw [hc r c, if_pos ⟨h1, h2, h3, h4⟩]
  · intro r c hn
    rw [hc r c, if_neg hn]

theorem example_blank_allocated : allocated example_blank_3x3 1 1 (2 ^ 1) := by
  intro r c h1 h2 h3 h4
  have hr : r = 1 ∨ r = 2 := by omega
  have hc : c = 1 ∨ c = 2 := by omega
  rcases hr with rfl | rfl <;> rcases hc with rfl | rfl <;> rfl

/-- Witness of C13: a 2x2 fill at origin (1, 1) of a 3x3 matrix. -/
theorem C13_leaf_block_fill_witness :
    ∃ out1 node1,
      RecNodeToMat 2 example_blank_3x3 (.mk (some example_pixel) .NULL .NULL .NULL .NULL)
        1 1 (2 ^ 1) (2 ^ 1) = .ok (out1, node1) ∧
      (∀ r c, 1 ≤ r → r < 1 + 2 ^ 1 → 1 ≤ c → c < 1 + 2 ^ 1 →
        mat_cell out1 r c = some (some example_pixel)) ∧
      (∀ r c, ¬ (1 ≤ r ∧ r < 1 + 2 ^ 1 ∧ 1 ≤ c ∧ c < 1 + 2 ^ 1) →
        mat_cell out1 r c = mat_cell example_blank_3x3 r c) ∧
      mat_shape out1 = mat_shape example_blank_3x3 :=
  C13_leaf_block_fill example_pixel 1 1 1 example_blank_3x3 2 (le_refl 1)
    example_blank_allocated (by norm_num)

/-- C15: quadrant split.  For every grid `mat` of width = height = `n` (in
particular for every even `n >= 2`), `SplitImgIn4 mat n n` returns four
`n/2 x n/2` grids `s0..s3` with `s0[y][x] = mat[y][x]`,
`s1[y][x] = mat[y][x + n/2]`, `s2[y][x] = mat[y + n/2][x]` and
`s3[y][x] = mat[y + n/2][x + n/2]`; the function only reads `mat`. -/
theorem C15_quadrant_split (mat : pixel_mat) (n : ℕ) (hg : is_grid n n mat = true) :
    ∃ s, SplitImgIn4 mat n n = .ok s ∧
      is_grid (n / 2) (n / 2) s.s0 = true ∧ is_grid (n / 2) (n / 2) s.s1 = true ∧
      is_grid (n / 2) (n / 2) s.s2 = true ∧ is_grid (n / 2) (n / 2) s.s3 = true ∧
      ∀ x y, x < n / 2 → y < n / 2 →
        mat_cell s.s0 y x = mat_cell mat y x ∧
        mat_cell s.s1 y x = mat_cell mat y (x + n / 2) ∧
        mat_cell s.s2 y x = mat_cell mat (y + n / 2) x ∧
        mat_cell s.s3 y x = mat_cell mat (y + n / 2) (x + n / 2) := by
  have hspec := is_grid_spec n n mat hg
  have hs := SplitImgIn4_ok mat n n (n / 2) (mat_px mat) rfl rfl
    (fun y x hy hx => hspec.2 y x (by omega) (by omega))
  refine ⟨_, hs, is_grid_grid_of _ _ _, is_grid_grid_of _ _ _, is_grid_grid_of _ _ _,
    is_grid_grid_of _ _ _, ?_⟩
  intro x y hx hy
  simp only
  rw [grid_of_cell _ _ _ y x hy hx, grid_of_cell _ _ _ y x hy hx,
    grid_of_cell _ _ _ y x hy hx, grid_of_cell _ _ _ y x hy hx,
    hspec.2 y x (by omega) (by omega), hspec.2 y (x + n / 2) (by omega) (by omega),
    hspec.2 (y + n / 2) x (by omega) (by omega),
    hspec.2 (y + n / 2) (x + n / 2) (by omega) (by omega)]
  exact ⟨rfl, rfl, rfl, rfl⟩

/-- Witness of C15: a 4x4 grid of sixteen different pixels. -/
theorem C15_quadrant_split_witness :
    ∃ s, SplitImgIn4 example_grid_4x4 4 4 = .ok s ∧
      is_grid (4 / 2) (4 / 2) s.s0 = true ∧ is_grid (4 / 2) (4 / 2) s.s1 = true ∧
      is_grid (4 / 2) (4 / 2) s.s2 = true ∧ is_grid (4 / 2) (4 / 2) s.s3 = true ∧
      ∀ x y, x < 4 / 2 → y < 4 / 2 →
        mat_cell s.s0 y x = mat_cell example_grid_4x4 y x ∧
        mat_cell s.s1 y x = mat_cell example_grid_4x4 y (x + 4 / 2) ∧
        mat_cell s.s2 y x = mat_cell example_grid_4x4 (y + 4 / 2) x ∧
        mat_cell s.s3 y x = mat_cell example_grid_4x4 (y + 4 / 2) (x + 4 / 2) :=
  C15_quadrant_split example_grid_4x4 4 (is_grid_grid_of 4 4 _)

/-- Once a round of a loop has failed, the loop has failed. -/
theorem c_for_error {σ : Type} (body : ℕ → σ → Except Err σ) (s : σ) (e : Err) (n : ℕ)
    (h : c_for n body s = .error e) : ∀ m, n ≤ m → c_for m body s = .error e := by
  intro m hm
  induction m with
  | zero =>
    have : n = 0 := by omega
    subst this
    exact h
  | succ m ih =>
    rcases Nat.lt_or_ge m n with h1 | h1
    · have : n = m + 1 := by omega
      subst this
      exact h
    · simp only [c_for, ih h1]

/-- With fewer columns than rows, `image_alloc` leaves the rows from index
`width` on without a row. -/
theorem image_alloc_short (width height : ℕ) (hw : width < height) :
    ∃ mat, image_alloc width height = .ok mat ∧ mat.length = height ∧
      (∀ i, i < width → mat[i]? = some (some (List.replicate width none))) ∧
      (∀ i, width ≤ i → i < height → mat[i]? = some none) := by
  refine ⟨alloc_state width height width, image_alloc_loop width height width hw.le, ?_, ?_, ?_⟩
  · simp [alloc_state]
  · intro i hi
    unfold alloc_state
    rw [List.getElem?_map, List.getElem?_range (by omega)]
    simp [hi]
  · intro i hi1 hi2
    unfold alloc_state
    rw [List.getElem?_map, List.getElem?_range hi2]
    have : ¬ i < width := by omega
    simp [this]

/-- With more columns than rows, `image_alloc` writes a row pointer past the
block of row pointers. -/
theorem image_alloc_long (width height : ℕ) (hw : height < width) :
    image_alloc width height = .error .out_of_bounds := by
  have h1 := image_alloc_loop width height height (le_refl _)
  have hlen : (alloc_state width height height).length = height := by simp [alloc_state]
  have h2 : c_for (height + 1)
      (fun i (mat : pixel_mat) =>
        if i < mat.length then Except.ok (mat.set i (some (List.replicate width none)))
        else Except.error Err.out_of_bounds)
      (List.replicate height none) = .error .out_of_bounds := by
    simp only [c_for, h1, hlen, lt_irrefl, if_false]
  exact c_for_error _ _ _ _ h2 width hw

/-- C16 on the code: `image_alloc` allocates `width` rows, not `height`.  With
width 1 and height 2 the row of index 1 is left without a row; with width 2 and
height 1 the row pointer of index 1 is written past the block of one row
pointer.  In general, with `width < height` the row of index `width` is left
unassigned, and with `height < width` the call overruns the block. -/
theorem C16_image_alloc_rows :
    image_alloc 1 2 = .ok [some [none], none] ∧
    image_alloc 2 1 = .error .out_of_bounds ∧
    (∀ width d, ∃ mat, image_alloc width (width + d + 1) = .ok mat ∧ mat[width]? = some none) ∧
    (∀ height d, image_alloc (height + d + 1) height = .error .out_of_bounds) := by
  refine ⟨rfl, rfl, ?_, fun height d => image_alloc_long _ _ (by omega)⟩
  intro width d
  obtain ⟨mat, h1, _, _, h4⟩ := image_alloc_short width (width + d + 1) (by omega)
  exact ⟨mat, h1, h4 width (le_refl _) (by omega)⟩

/-- Counterexample to C17 as stated: four identical leaves have variance 0, which
is at most the threshold 0, and `PruneBranches` does not collapse the node: it
returns the same internal node with its four leaves, which is not a leaf. -/
theorem C17_counterexample :
    PixelVariance
        (PixelAverage [example_pixel, example_pixel, example_pixel, example_pixel] 4)
        [example_pixel, example_pixel, example_pixel, example_pixel] 4 ≤ 0 ∧
    PruneBranches 2
        (four_leaves example_pixel example_pixel example_pixel example_pixel).toNode 0
      = .ok (four_leaves example_pixel example_pixel example_pixel example_pixel).toNode ∧
    (four_leaves example_pixel example_pixel example_pixel example_pixel).toNode.isLeaf
      = false ∧
    (four_leaves example_pixel example_pixel example_pixel example_pixel).toNode.isInternal
      = true := by
  refine ⟨?_, ?_, rfl, rfl⟩
  · rw [PixelAverage_same, PixelVariance_four, raw_distance_self]
    norm_num
  · exact PruneBranches_four_leaves_keep example_pixel example_pixel example_pixel
      example_pixel 0 2 (by norm_num) (not_lt.mpr (PixelVariance_four_nonneg _ _ _ _ _))

/-- C17, amended: the threshold is a strict bound.  For an internal node whose
four children are leaves once pruned, with leaf values `p1..p4` and variance `v`
of the four values about their `PixelAverage`, `PruneBranches` returns a node
that is a leaf exactly when `v < threshold` (it then holds the average), and
that is internal exactly when `threshold <= v` (it then keeps the four leaves);
in particular the boundary `v = threshold` is refused. -/
theorem C17_threshold_strict (a b c d : quad_node) (p1 p2 p3 p4 : png_pixel) (t : ℚ)
    (fuel : ℕ)
    (ha : PruneBranches fuel a t = .ok (.mk (some p1) .NULL .NULL .NULL .NULL))
    (hb : PruneBranches fuel b t = .ok (.mk (some p2) .NULL .NULL .NULL .NULL))
    (hc : PruneBranches fuel c t = .ok (.mk (some p3) .NULL .NULL .NULL .NULL))
    (hd : PruneBranches fuel d t = .ok (.mk (some p4) .NULL .NULL .NULL .NULL)) :
    ∃ r, PruneBranches (fuel + 1) (.mk none (.child a) (.child b) (.child c) (.child d)) t
        = .ok r ∧
      (r.isLeaf = true ↔
        PixelVariance (PixelAverage [p1, p2, p3, p4] 4) [p1, p2, p3, p4] 4 < t) ∧
      (r.isInternal = true ↔
        t ≤ PixelVariance (PixelAverage [p1, p2, p3, p4] 4) [p1, p2, p3, p4] 4) ∧
      (PixelVariance (PixelAverage [p1, p2, p3, p4] 4) [p1, p2, p3, p4] 4 < t →
        r = .mk (some (PixelAverage [p1, p2, p3, p4] 4)) .NULL .NULL .NULL .NULL) ∧
      (t ≤ PixelVariance (PixelAverage [p1, p2, p3, p4] 4) [p1, p2, p3, p4] 4 →
        r = .mk none (.child (.mk (some p1) .NULL .NULL .NULL .NULL))
            (.child (.mk (some p2) .NULL .NULL .NULL .NULL))
            (.child (.mk (some p3) .NULL .NULL .NULL .NULL))
            (.child (.mk (some p4) .NULL .NULL .NULL .NULL))) ∧
      (PixelVariance (PixelAverage [p1, p2, p3, p4] 4) [p1, p2, p3, p4] 4 = t →
        r.isInternal = true) := by
  by_cases hv : PixelVariance (PixelAverage [p1, p2, p3, p4] 4) [p1, p2, p3, p4] 4 < t
  · refine ⟨.mk (some (PixelAverage [p1, p2, p3, p4] 4)) .NULL .NULL .NULL .NULL, ?_, ?_, ?_,
      fun _ => rfl, fun h => absurd hv (not_lt.mpr h),
      fun h => absurd hv (by rw [h]; exact lt_irrefl _)⟩
    · simp only [PruneBranches, quad_node.q1, quad_node.q2, quad_node.q3, quad_node.q4,
        qn_ptr.isNull, call_q1, call_q2, call_q3, call_q4, ha, hb, hc, hd, ptr_value,
        quad_node.value, hv]
      simp
    · simp [quad_node.isLeaf, hv]
    · simp [quad_node.isInternal, hv]
  · refine ⟨.mk none (.child (.mk (some p1) .NULL .NULL .NULL .NULL))
        (.child (.mk (some p2) .NULL .NULL .NULL .NULL))
        (.child (.mk (some p3) .NULL .NULL .NULL .NULL))
        (.child (.mk (some p4) .NULL .NULL .NULL .NULL)), ?_, ?_, ?_,
      fun h => absurd h hv, fun _ => rfl, fun _ => rfl⟩
    · simp only [PruneBranches, quad_node.q1, quad_node.q2, quad_node.q3, quad_node.q4,
        qn_ptr.isNull, call_q1, call_q2, call_q3, call_q4, ha, hb, hc, hd, ptr_value,
        quad_node.value, hv]
      simp
    · simp [quad_node.isLeaf, hv]
    · simp [quad_node.isInternal, not_lt.mp hv]

/-- Witness of C17: four leaf children holding the same pixel, threshold 0, the
boundary case: the variance is 0, the node stays internal. -/
theorem C17_threshold_strict_witness :
    PruneBranches 1 (qn_alloc (some example_pixel)) 0
        = .ok (.mk (some example_pixel) .NULL .NULL .NULL .NULL) ∧
    ∃ r, PruneBranches (1 + 1)
          (.mk none (.child (qn_alloc (some example_pixel)))
            (.child (qn_alloc (some example_pixel))) (.child (qn_alloc (some example_pixel)))
            (.child (qn_alloc (some example_pixel)))) 0
        = .ok r ∧
      (r.isLeaf = true ↔
        PixelVariance
          (PixelAverage [example_pixel, example_pixel, example_pixel, example_pixel] 4)
          [example_pixel, example_pixel, example_pixel, example_pixel] 4 < 0) ∧
      (r.isInternal = true ↔
        0 ≤ PixelVariance
          (PixelAverage [example_pixel, example_pixel, example_pixel, example_pixel] 4)
          [example_pixel, example_pixel, example_pixel, example_pixel] 4) ∧
      (PixelVariance
          (PixelAverage [example_pixel, example_pixel, example_pixel, example_pixel] 4)
          [example_pixel, example_pixel, example_pixel, example_pixel] 4 < 0 →
        r = .mk (some
          (PixelAverage [example_pixel, example_pixel, example_pixel, example_pixel] 4))
          .NULL .NULL .NULL .NULL) ∧
      (0 ≤ PixelVariance
          (PixelAverage [example_pixel, example_pixel, example_pixel, example_pixel] 4)
          [example_pixel, example_pixel, example_pixel, example_pixel] 4 →
        r = .mk none (.child (.mk (some example_pixel) .NULL .NULL .NULL .NULL))
            (.child (.mk (some example_pixel) .NULL .NULL .NULL .NULL))
            (.child (.mk (some example_pixel) .NULL .NULL .NULL .NULL))
            (.child (.mk (some example_pixel) .NULL .NULL .NULL .NULL))) ∧
      (PixelVariance
          (PixelAverage [example_pixel, example_pixel, example_pixel, example_pixel] 4)
          [example_pixel, example_pixel, example_pixel, example_pixel] 4 = 0 →
        r.isInternal = true) :=
  ⟨rfl, C17_threshold_strict (qn_alloc (some example_pixel)) (qn_alloc (some example_pixel))
    (qn_alloc (some example_pixel)) (qn_alloc (some example_pixel))
    example_pixel example_pixel example_pixel example_pixel 0 1 rfl rfl rfl rfl⟩

theorem toNode_leaves (T : QTree) : T.toNode.leaves = T.leaves := by
  induction T with
  | leaf p => simp [QTree.toNode, quad_node.leaves, qn_ptr.isNull, QTree.leaves]
  | node a b c d iha ihb ihc ihd =>
    simp [QTree.toNode, quad_node.leaves, qn_ptr.leaves, qn_ptr.isNull, QTree.leaves,
      iha, ihb, ihc, ihd]

/-- A subtree that a threshold collapses to a leaf is collapsed to the same
leaf by every larger threshold. -/
theorem prune_leaf_mono (t1 t2 : ℚ) (ht : t1 ≤ t2) (S : QTree) :
    ∀ p, S.prune t1 = .leaf p → S.prune t2 = .leaf p := by
  induction S with
  | leaf q => intro p h; exact h
  | node a b c d iha ihb ihc ihd =>
    intro p h
    rcases prune_node_cases t1 a b c d with ⟨p1, p2, p3, p4, h1, h2, h3, h4, h5⟩ | ⟨_, h5⟩
    · rw [h5] at h
      rcases merge_four_cases t1 p1 p2 p3 p4 with ⟨hv, hm⟩ | ⟨_, hm⟩
      · rw [hm] at h
        rw [prune_node_of_leaves t2 a b c d p1 p2 p3 p4 (iha p1 h1) (ihb p2 h2) (ihc p3 h3)
          (ihd p4 h4)]
        unfold merge_four
        rw [if_pos (lt_of_lt_of_le hv ht)]
        exact h
      · rw [hm] at h; simp at h
    · rw [h5] at h; simp at h

theorem QTree.at_append (pre suf : List (Fin 4)) :
    ∀ T : QTree, T.at (pre ++ suf) = (T.at pre).bind (fun S => S.at suf) := by
  induction pre with
  | nil => intro T; rfl
  | cons i pre ih =>
    intro T
    simp only [List.cons_append, QTree.at]
    cases T.sub i with
    | none => rfl
    | some c => exact ih c

theorem QTree.at_leaf (p : png_pixel) (path : List (Fin 4)) (S : QTree)
    (h : (QTree.leaf p).at path = some S) : path = [] := by
  cases path with
  | nil => rfl
  | cons i path => simp [QTree.at, QTree.sub] at h

/-- A position of a tree is a position of the pruned tree, holding the pruned
subtree, unless it lies beneath a leaf of the pruned tree. -/
theorem prune_at_cases (t : ℚ) (path : List (Fin 4)) :
    ∀ (T S : QTree), T.at path = some S →
      (T.prune t).at path = some (S.prune t) ∨
      ∃ pre suf p, path = pre ++ suf ∧ suf ≠ [] ∧ (T.prune t).at pre = some (.leaf p) := by
  induction path with
  | nil =>
    intro T S h
    simp only [QTree.at, Option.some.injEq] at h
    subst h
    exact Or.inl rfl
  | cons i path ih =>
    intro T S h
    cases T with
    | leaf q => simp [QTree.at, QTree.sub] at h
    | node a b c d =>
      cases hP : (QTree.node a b c d).prune t with
      | leaf p => exact Or.inr ⟨[], i :: path, p, rfl, by simp, rfl⟩
      | node a1 b1 c1 d1 =>
        obtain ⟨a0, b0, c0, d0, hT, ha, hb, hc, hd⟩ := prune_eq_node t _ a1 b1 c1 d1 hP
        simp only [QTree.node.injEq] at hT
        obtain ⟨rfl, rfl, rfl, rfl⟩ := hT
        subst ha hb hc hd
        have key : ∀ (X : QTree), X.at path = some S →
            (X.prune t).at path = some (S.prune t) ∨
            ∃ pre suf p, i :: path = (i :: pre) ++ suf ∧ suf ≠ [] ∧
              (X.prune t).at pre = some (.leaf p) := by
          intro X hX
          rcases ih X S hX with h1 | ⟨pre, suf, p, h1, h2, h3⟩
          · exact Or.inl h1
          · exact Or.inr ⟨pre, suf, p, by rw [h1]; rfl, h2, h3⟩
        fin_cases i
        · rcases key a (by simpa [QTree.at, QTree.sub] using h) with h1 | ⟨pre, suf, p, h1, h2, h3⟩
          · exact Or.inl (by simpa [QTree.at, QTree.sub] using h1)
          · exact Or.inr ⟨_, suf, p, h1, h2, by simpa [QTree.at, QTree.sub] using h3⟩
        · rcases key b (by simpa [QTree.at, QTree.sub] using h) with h1 | ⟨pre, suf, p, h1, h2, h3⟩
          · exact Or.inl (by simpa [QTree.at, QTree.sub] using h1)
          · exact Or.inr ⟨_, suf, p, h1, h2, by simpa [QTree.at, QTree.sub] using h3⟩
        · rcases key c (by simpa [QTree.at, QTree.sub] using h) with h1 | ⟨pre, suf, p, h1, h2, h3⟩
          · exact Or.inl (by simpa [QTree.at, QTree.sub] using h1)
          · exact Or.inr ⟨_, suf, p, h1, h2, by simpa [QTree.at, QTree.sub] using h3⟩
        · rcases key d (by simpa [QTree.at, QTree.sub] using h) with h1 | ⟨pre, suf, p, h1, h2, h3⟩
          · exact Or.inl (by simpa [QTree.at, QTree.sub] using h1)
          · exact Or.inr ⟨_, suf, p, h1, h2, by simpa [QTree.at, QTree.sub] using h3⟩

theorem leaves_pos (T : QTree) : 1 ≤ T.leaves := by
  induction T with
  | leaf p => simp [QTree.leaves]
  | node a b c d iha ihb ihc ihd => simp only [QTree.leaves]; omega

theorem merge_four_leaves_le (t : ℚ) (p1 p2 p3 p4 : png_pixel) :
    (merge_four t p1 p2 p3 p4).leaves ≤ 4 := by
  rcases merge_four_cases t p1 p2 p3 p4 with ⟨_, hm⟩ | ⟨_, hm⟩ <;> rw [hm] <;>
    simp [QTree.leaves]

/-- A larger threshold leaves no more leaves. -/
theorem prune_leaves_mono (t1 t2 : ℚ) (ht : t1 ≤ t2) (S : QTree) :
    (S.prune t2).leaves ≤ (S.prune t1).leaves := by
  induction S with
  | leaf q => simp [QTree.prune]
  | node a b c d iha ihb ihc ihd =>
    rcases prune_node_cases t1 a b c d with ⟨p1, p2, p3, p4, h1, h2, h3, h4, h5⟩ | ⟨_, h5⟩
    · have h6 := prune_node_of_leaves t2 a b c d p1 p2 p3 p4 (prune_leaf_mono t1 t2 ht a p1 h1)
        (prune_leaf_mono t1 t2 ht b p2 h2) (prune_leaf_mono t1 t2 ht c p3 h3)
        (prune_leaf_mono t1 t2 ht d p4 h4)
      rw [h5, h6]
      rcases merge_four_cases t1 p1 p2 p3 p4 with ⟨hv, hm⟩ | ⟨_, hm⟩
      · rw [hm]
        unfold merge_four
        rw [if_pos (lt_of_lt_of_le hv ht)]
      · rw [hm]
        have := merge_four_leaves_le t2 p1 p2 p3 p4
        simp only [QTree.leaves]
        omega
    · rw [h5]
      rcases prune_node_cases t2 a b c d with ⟨p1, p2, p3, p4, _, _, _, _, h6⟩ | ⟨_, h6⟩
      · rw [h6]
        have := merge_four_leaves_le t2 p1 p2 p3 p4
        have := leaves_pos (a.prune t1)
        have := leaves_pos (b.prune t1)
        have := leaves_pos (c.prune t1)
        have := leaves_pos (d.prune t1)
        simp only [QTree.leaves]
        omega
      · rw [h6]
        simp only [QTree.leaves]
        omega

/-- C19: pruning is monotone in the threshold.  For every well-formed quadtree
`T` and thresholds `t1 <= t2`, with `T1` and `T2` the results of `PruneBranches`
for `t1` and `t2`: every position that is a leaf of `T1` is a leaf of `T2` with
the same value or lies beneath a leaf of `T2`; every internal position of `T2`
is internal in `T1`; and `T2` has at most as many leaves as `T1`. -/
theorem C19_prune_monotone (T : quad_node) (t1 t2 : ℚ) (fuel : ℕ) (hwf : WellFormed T)
    (hfuel : T.depth < fuel) (ht : t1 ≤ t2) :
    ∃ T1 T2, PruneBranches fuel T t1 = .ok T1 ∧ PruneBranches fuel T t2 = .ok T2 ∧
      (∀ path n1, T1.at path = some n1 → n1.isLeaf = true →
        (∃ n2, T2.at path = some n2 ∧ n2.isLeaf = true ∧ n2.value = n1.value) ∨
        (∃ pre suf n2, path = pre ++ suf ∧ suf ≠ [] ∧ T2.at pre = some n2 ∧
          n2.isLeaf = true)) ∧
      (∀ path n2, T2.at path = some n2 → n2.isInternal = true →
        ∃ n1, T1.at path = some n1 ∧ n1.isInternal = true) ∧
      T2.leaves ≤ T1.leaves := by
  obtain ⟨Q, rfl⟩ := (wellFormed_iff T).mp hwf
  rw [toNode_depth] at hfuel
  refine ⟨(Q.prune t1).toNode, (Q.prune t2).toNode, PruneBranches_toNode t1 Q fuel hfuel,
    PruneBranches_toNode t2 Q fuel hfuel, ?_, ?_, ?_⟩
  · intro path n1 h1 hl
    rw [toNode_at] at h1
    cases hS : (Q.prune t1).at path with
    | none => rw [hS] at h1; simp at h1
    | some S1 =>
      rw [hS] at h1
      simp only [Option.map_some', Option.some.injEq] at h1
      subst h1
      obtain ⟨S, hS0, rfl⟩ := prune_at t1 path Q S1 hS
      obtain ⟨p, hp⟩ := (toNode_isLeaf _).mp hl
      have hp2 := prune_leaf_mono t1 t2 ht S p hp
      rcases prune_at_cases t2 path Q S hS0 with h2 | ⟨pre, suf, q, e1, e2, e3⟩
      · left
        refine ⟨(S.prune t2).toNode, ?_, ?_, ?_⟩
        · rw [toNode_at, h2]; rfl
        · rw [hp2]; rfl
        · rw [hp2, hp]
      · right
        refine ⟨pre, suf, (QTree.leaf q).toNode, e1, e2, ?_, rfl⟩
        rw [toNode_at, e3]; rfl
  · intro path n2 h2 hint
    rw [toNode_at] at h2
    cases hS : (Q.prune t2).at path with
    | none => rw [hS] at h2; simp at h2
    | some S2 =>
      rw [hS] at h2
      simp only [Option.map_some', Option.some.injEq] at h2
      subst h2
      obtain ⟨S, hS0, rfl⟩ := prune_at t2 path Q S2 hS
      obtain ⟨a2, b2, c2, d2, hnode⟩ := (toNode_isInternal _).mp hint
      rcases prune_at_cases t1 path Q S hS0 with h1 | ⟨pre, suf, q, e1, e2, e3⟩
      · refine ⟨(S.prune t1).toNode, by rw [toNode_at, h1]; rfl, ?_⟩
        cases hP : S.prune t1 with
        | leaf p =>
          have := prune_leaf_mono t1 t2 ht S p hP
          rw [this] at hnode
          simp at hnode
        | node a1 b1 c1 d1 => rfl
      · exfalso
        obtain ⟨S0, hS1, hq⟩ := prune_at t1 pre Q (.leaf q) e3
        have hq2 := prune_leaf_mono t1 t2 ht S0 q hq.symm
        -- the position `pre` of the tree pruned with `t2` is a leaf as well
        have hpre : (Q.prune t2).at pre = some (.leaf q) ∨
            ∃ pre1 suf1 p1, pre = pre1 ++ suf1 ∧ suf1 ≠ [] ∧
              (Q.prune t2).at pre1 = some (.leaf p1) := by
          have := prune_at_cases t2 pre Q S0 hS1
          rw [hq2] at this
          exact this
        rw [e1, QTree.at_append] at hS
        rcases hpre with h3 | ⟨pre1, suf1, p1, f1, f2, f3⟩
        · rw [h3] at hS
          simp only [Option.some_bind] at hS
          have := QTree.at_leaf q suf _ hS
          exact e2 this
        · rw [f1, QTree.at_append, f3] at hS
          simp only [Option.some_bind] at hS
          cases hx : (QTree.leaf p1).at suf1 with
          | none => rw [hx] at hS; simp at hS
          | some X =>
            have := QTree.at_leaf p1 suf1 X hx
            exact f2 this
  · rw [toNode_leaves, toNode_leaves]
    exact prune_leaves_mono t1 t2 ht Q

/-- Witness of C19: a tree of depth 2, thresholds 0.0005 and 0.1. -/
theorem C19_prune_monotone_witness :
    ∃ T1 T2, PruneBranches 3 example_tree.toNode (1 / 2000) = .ok T1 ∧
      PruneBranches 3 example_tree.toNode (1 / 10) = .ok T2 ∧
      (∀ path n1, T1.at path = some n1 → n1.isLeaf = true →
        (∃ n2, T2.at path = some n2 ∧ n2.isLeaf = true ∧ n2.value = n1.value) ∨
        (∃ pre suf n2, path = pre ++ suf ∧ suf ≠ [] ∧ T2.at pre = some n2 ∧
          n2.isLeaf = true)) ∧
      (∀ path n2, T2.at path = some n2 → n2.isInternal = true →
        ∃ n1, T1.at path = some n1 ∧ n1.isInternal = true) ∧
      T2.leaves ≤ T1.leaves :=
  C19_prune_monotone example_tree.toNode (1 / 2000) (1 / 10) 3 (wellFormed_toNode _)
    (by decide) (by norm_num)

/-! ## Range of the output colours -/

theorem half_bounds (L w : ℕ) (h1 : 2 ^ (L + 1) ≤ w) (h2 : w < 2 ^ (L + 2)) :
    2 ^ L ≤ w / 2 ∧ w / 2 < 2 ^ (L + 1) ∧ 2 * (w / 2) ≤ w ∧ w ≠ 1 ∧ w ≠ 0 := by
  have e1 : 2 ^ (L + 1) = 2 * 2 ^ L := by rw [pow_succ]; ring
  have e2 : 2 ^ (L + 2) = 2 * (2 * 2 ^ L) := by rw [pow_succ, pow_succ]; ring
  have hpos : 0 < 2 ^ L := Nat.pow_pos (by norm_num)
  refine ⟨by omega, by omega, by omega, by omega, by omega⟩

/-- On a matrix whose top-left `w x w` cells hold the pixels `f`, with
`2^L <= w < 2^(L+1)`, `RecMatToNode` returns, with any fuel above `L`, the
node structure of `build_gen L w f`, and prints no warning. -/
theorem RecMatToNode_gen (L : ℕ) :
    ∀ (w fuel : ℕ) (mat : pixel_mat) (f : ℕ → ℕ → png_pixel), 2 ^ L ≤ w → w < 2 ^ (L + 1) →
      L < fuel → (∀ y x, y < w → x < w → mat_cell mat y x = some (some (f y x))) →
      RecMatToNode fuel mat w w = .ok ((build_gen L w f).toNode, 0) := by
  induction L with
  | zero =>
    intro w fuel mat f h1 h2 hfuel hf
    have hw : w = 1 := by norm_num at h1 h2; omega
    subst hw
    obtain ⟨n, rfl⟩ : ∃ n, fuel = n + 1 := ⟨fuel - 1, by omega⟩
    have := mat_read_of_cell mat 0 0 _ (hf 0 0 (by norm_num) (by norm_num))
    simp [RecMatToNode, this, build_gen, QTree.toNode, qn_alloc]
  | succ L ih =>
    intro w fuel mat f h1 h2 hfuel hf
    obtain ⟨n, rfl⟩ : ∃ n, fuel = n + 1 := ⟨fuel - 1, by omega⟩
    obtain ⟨b1, b2, b3, b4, b5⟩ := half_bounds L w h1 h2
    have hsplit := SplitImgIn4_ok mat w w (w / 2) f rfl rfl
      (fun y x hy hx => hf y x (by omega) (by omega))
    have h0 := ih (w / 2) n (grid_of (w / 2) (w / 2) f) f b1 b2 (by omega)
      (fun y x hy hx => grid_of_cell _ _ _ y x hy hx)
    have h1' := ih (w / 2) n (grid_of (w / 2) (w / 2) (fun y x => f y (x + w / 2))) _ b1 b2
      (by omega) (fun y x hy hx => grid_of_cell _ _ _ y x hy hx)
    have h2' := ih (w / 2) n (grid_of (w / 2) (w / 2) (fun y x => f (y + w / 2) x)) _ b1 b2
      (by omega) (fun y x hy hx => grid_of_cell _ _ _ y x hy hx)
    have h3' := ih (w / 2) n (grid_of (w / 2) (w / 2) (fun y x => f (y + w / 2) (x + w / 2))) _
      b1 b2 (by omega) (fun y x hy hx => grid_of_cell _ _ _ y x hy hx)
    simp only [RecMatToNode, b4, false_and, if_false, hsplit, h0, h1', h2', h3', b5, or_self,
      build_gen, QTree.toNode]

theorem build_gen_perfect (L w : ℕ) (f : ℕ → ℕ → png_pixel) :
    (build_gen L w f).perfect L = true := by
  induction L generalizing w f with
  | zero => rfl
  | succ L ih => simp [build_gen, QTree.perfect, ih]

theorem build_gen_leaves (L w : ℕ) (f : ℕ → ℕ → png_pixel) :
    (build_gen L w f).leaves = 4 ^ L := by
  induction L generalizing w f with
  | zero => rfl
  | succ L ih =>
    simp only [build_gen, QTree.leaves, ih]
    rw [pow_succ]; ring

theorem build_gen_depth (L w : ℕ) (f : ℕ → ℕ → png_pixel) : (build_gen L w f).depth = L := by
  induction L generalizing w f with
  | zero => rfl
  | succ L ih => simp [build_gen, QTree.depth, ih]

theorem is_coord_lt (L : ℕ) : ∀ (w r : ℕ), 2 ^ L ≤ w → is_coord L w r = true → r < w := by
  induction L with
  | zero =>
    intro w r hw h
    simp only [is_coord, beq_iff_eq] at h
    norm_num at hw
    omega
  | succ L ih =>
    intro w r hw h
    have e1 : 2 ^ (L + 1) = 2 * 2 ^ L := by rw [pow_succ]; ring
    have hm : 2 ^ L ≤ w / 2 := by omega
    simp only [is_coord] at h
    by_cases hr : r < w / 2
    · omega
    · rw [if_neg hr] at h
      have := ih (w / 2) (r - w / 2) hm h
      omega

theorem is_coord_succ_lo (L w a : ℕ) (hm : 2 ^ L ≤ w / 2) (h : is_coord L (w / 2) a = true) :
    is_coord (L + 1) w a = true := by
  have := is_coord_lt L (w / 2) a hm h
  simp only [is_coord, this, if_true, h]

theorem is_coord_succ_hi (L w a : ℕ) (h : is_coord L (w / 2) a = true) :
    is_coord (L + 1) w (a + w / 2) = true := by
  have : ¬ (a + w / 2 < w / 2) := by omega
  simp only [is_coord, this, if_false, Nat.add_sub_cancel, h]

theorem is_coord_succ_cases (L w a : ℕ) (h : is_coord (L + 1) w a = true) :
    (a < w / 2 ∧ is_coord L (w / 2) a = true) ∨
      (w / 2 ≤ a ∧ is_coord L (w / 2) (a - w / 2) = true) := by
  simp only [is_coord] at h
  by_cases ha : a < w / 2
  · rw [if_pos ha] at h; exact Or.inl ⟨ha, h⟩
  · rw [if_neg ha] at h; exact Or.inr ⟨by omega, h⟩

theorem sparse_allocated (out out1 : pixel_mat) (x y L w : ℕ) (g : ℕ → ℕ → png_pixel)
    (h : sparse_painted out out1 x y L w g) (x1 y1 n1 : ℕ) (ha : allocated out x1 y1 n1) :
    allocated out1 x1 y1 n1 := by
  intro r c h1 h2 h3 h4
  rw [h.2 r c]
  split_ifs
  · rfl
  · exact ha r c h1 h2 h3 h4

/-- Drawing the four quadrants of a square of any side one after the other. -/
theorem sparse_four (o0 o1 o2 o3 o4 : pixel_mat) (x y L w : ℕ) (f : ℕ → ℕ → png_pixel)
    (hm : 2 ^ L ≤ w / 2)
    (h1 : sparse_painted o0 o1 x y L (w / 2) f)
    (h2 : sparse_painted o1 o2 (x + w / 2) y L (w / 2) (fun y x => f y (x + w / 2)))
    (h3 : sparse_painted o2 o3 x (y + w / 2) L (w / 2) (fun y x => f (y + w / 2) x))
    (h4 : sparse_painted o3 o4 (x + w / 2) (y + w / 2) L (w / 2)
      (fun y x => f (y + w / 2) (x + w / 2))) :
    sparse_painted o0 o4 x y (L + 1) w f := by
  refine ⟨by rw [h4.1, h3.1, h2.1, h1.1], ?_⟩
  intro r c
  rw [h4.2 r c, h3.2 r c, h2.2 r c, h1.2 r c]
  by_cases ht : y ≤ r ∧ x ≤ c ∧ is_coord (L + 1) w (r - y) = true ∧
      is_coord (L + 1) w (c - x) = true
  · rw [if_pos ht]
    obtain ⟨t1, t2, t3, t4⟩ := ht
    rcases is_coord_succ_cases L w _ t3 with ⟨r1, r2⟩ | ⟨r1, r2⟩ <;>
      rcases is_coord_succ_cases L w _ t4 with ⟨c1, c2⟩ | ⟨c1, c2⟩
    · rw [if_neg (by rintro ⟨a1, a2, a3, a4⟩; omega), if_neg (by rintro ⟨a1, a2, a3, a4⟩; omega),
        if_neg (by rintro ⟨a1, a2, a3, a4⟩; omega), if_pos ⟨t1, t2, r2, c2⟩]
    · have e : c - (x + w / 2) = c - x - w / 2 := by omega
      rw [if_neg (by rintro ⟨a1, a2, a3, a4⟩; omega), if_neg (by rintro ⟨a1, a2, a3, a4⟩; omega),
        if_pos ⟨t1, by omega, r2, by rw [e]; exact c2⟩]
      have e2 : c - (x + w / 2) + w / 2 = c - x := by omega
      simp only [e2]
    · have e : r - (y + w / 2) = r - y - w / 2 := by omega
      rw [if_neg (by rintro ⟨a1, a2, a3, a4⟩; omega),
        if_pos ⟨by omega, t2, by rw [e]; exact r2, c2⟩]
      have e2 : r - (y + w / 2) + w / 2 = r - y := by omega
      simp only [e2]
    · have e : r - (y + w / 2) = r - y - w / 2 := by omega
      have e' : c - (x + w / 2) = c - x - w / 2 := by omega
      rw [if_pos ⟨by omega, by omega, by rw [e]; exact r2, by rw [e']; exact c2⟩]
      have e2 : r - (y + w / 2) + w / 2 = r - y := by omega
      have e3 : c - (x + w / 2) + w / 2 = c - x := by omega
      simp only [e2, e3]
  · rw [if_neg ht]
    have n4 : ¬ (y + w / 2 ≤ r ∧ x + w / 2 ≤ c ∧ is_coord L (w / 2) (r - (y + w / 2)) = true ∧
        is_coord L (w / 2) (c - (x + w / 2)) = true) := by
      rintro ⟨a1, a2, a3, a4⟩
      apply ht
      have e : r - y = r - (y + w / 2) + w / 2 := by omega
      have e' : c - x = c - (x + w / 2) + w / 2 := by omega
      refine ⟨by omega, by omega, ?_, ?_⟩
      · rw [e]; exact is_coord_succ_hi L w _ a3
      · rw [e']; exact is_coord_succ_hi L w _ a4
    have n3 : ¬ (y + w / 2 ≤ r ∧ x ≤ c ∧ is_coord L (w / 2) (r - (y + w / 2)) = true ∧
        is_coord L (w / 2) (c - x) = true) := by
      rintro ⟨a1, a2, a3, a4⟩
      apply ht
      have e : r - y = r - (y + w / 2) + w / 2 := by omega
      refine ⟨by omega, a2, ?_, is_coord_succ_lo L w _ hm a4⟩
      rw [e]; exact is_coord_succ_hi L w _ a3
    have n2 : ¬ (y ≤ r ∧ x + w / 2 ≤ c ∧ is_coord L (w / 2) (r - y) = true ∧
        is_coord L (w / 2) (c - (x + w / 2)) = true) := by
      rintro ⟨a1, a2, a3, a4⟩
      apply ht
      have e' : c - x = c - (x + w / 2) + w / 2 := by omega
      refine ⟨a1, by omega, is_coord_succ_lo L w _ hm a3, ?_⟩
      rw [e']; exact is_coord_succ_hi L w _ a4
    have n1 : ¬ (y ≤ r ∧ x ≤ c ∧ is_coord L (w / 2) (r - y) = true ∧
        is_coord L (w / 2) (c - x) = true) := by
      rintro ⟨a1, a2, a3, a4⟩
      exact ht ⟨a1, a2, is_coord_succ_lo L w _ hm a3, is_coord_succ_lo L w _ hm a4⟩
    rw [if_neg n4, if_neg n3, if_neg n2, if_neg n1]

/-- Drawing the tree built from a square of any side `w`, with
`2^L <= w < 2^(L+1)`, over an allocated `w x w` square: the call returns with
any fuel above `L`, leaves the tree as it is, and writes exactly the cells whose
row and column offsets are reached by the `L` halvings, each with the pixel of
the same position of the input. -/
theorem RecNodeToMat_gen (L : ℕ) :
    ∀ (w fuel : ℕ) (f : ℕ → ℕ → png_pixel) (out : pixel_mat) (x y : ℕ), 2 ^ L ≤ w →
      w < 2 ^ (L + 1) → L < fuel → allocated out x y w →
      ∃ out1, RecNodeToMat fuel out (build_gen L w f).toNode x y w w
          = .ok (out1, (build_gen L w f).toNode) ∧
        sparse_painted out out1 x y L w f := by
  induction L with
  | zero =>
    intro w fuel f out x y h1 h2 hfuel ha
    have hw : w = 1 := by norm_num at h1 h2; omega
    subst hw
    obtain ⟨n, rfl⟩ : ∃ n, fuel = n + 1 := ⟨fuel - 1, by omega⟩
    obtain ⟨out1, hw, hs, hc⟩ := painted_one out x y (f 0 0) f rfl ha
    refine ⟨out1, ?_, hs, ?_⟩
    · simp [RecNodeToMat, build_gen, QTree.toNode, quad_node.value, hw]
    · intro r c
      rw [hc r c]
      by_cases h : y ≤ r ∧ r < y + 1 ∧ x ≤ c ∧ c < x + 1
      · have e1 : r - y = 0 := by omega
        have e2 : c - x = 0 := by omega
        rw [if_pos h, if_pos ⟨h.1, h.2.2.1, by simp [is_coord, e1], by simp [is_coord, e2]⟩]
      · rw [if_neg h, if_neg]
        rintro ⟨a1, a2, a3, a4⟩
        simp only [is_coord, beq_iff_eq] at a3 a4
        omega
  | succ L ih =>
    intro w fuel f out x y h1 h2 hfuel ha
    obtain ⟨n, rfl⟩ : ∃ n, fuel = n + 1 := ⟨fuel - 1, by omega⟩
    obtain ⟨b1, b2, b3, b4, b5⟩ := half_bounds L w h1 h2
    have hq : ∀ (o : pixel_mat) (dx dy : ℕ), allocated o x y w → dx ≤ w / 2 → dy ≤ w / 2 →
        allocated o (x + dx) (y + dy) (w / 2) := by
      intro o dx dy hal hdx hdy r c k1 k2 k3 k4
      exact hal r c (by omega) (by omega) (by omega) (by omega)
    obtain ⟨o1, r1, p1⟩ := ih (w / 2) n f out x y b1 b2 (by omega)
      (by simpa using hq out 0 0 ha (by omega) (by omega))
    have a1 := sparse_allocated _ _ _ _ _ _ _ p1 _ _ _ ha
    obtain ⟨o2, r2, p2⟩ := ih (w / 2) n (fun y x => f y (x + w / 2)) o1 (x + w / 2) y b1 b2
      (by omega) (by simpa using hq o1 (w / 2) 0 a1 (le_refl _) (by omega))
    have a2 := sparse_allocated _ _ _ _ _ _ _ p2 _ _ _ a1
    obtain ⟨o3, r3, p3⟩ := ih (w / 2) n (fun y x => f (y + w / 2) x) o2 x (y + w / 2) b1 b2
      (by omega) (by simpa using hq o2 0 (w / 2) a2 (by omega) (le_refl _))
    have a3 := sparse_allocated _ _ _ _ _ _ _ p3 _ _ _ a2
    obtain ⟨o4, r4, p4⟩ := ih (w / 2) n (fun y x => f (y + w / 2) (x + w / 2)) o3 (x + w / 2)
      (y + w / 2) b1 b2 (by omega) (hq o3 (w / 2) (w / 2) a3 (le_refl _) (le_refl _))
    refine ⟨o4, ?_, sparse_four out o1 o2 o3 o4 x y L w f b1 p1 p2 p3 p4⟩
    simp only [RecNodeToMat, b4, false_and, if_false, build_gen, QTree.toNode, quad_node.q1,
      quad_node.q2, quad_node.q3, quad_node.q4, qn_ptr.isNull, call_q1, call_q2, call_q3,
      call_q4, r1, r2, r3, r4, Bool.false_eq_true]

/-- The `L` halvings of a side `w >= 2^L` reach exactly `2^L` offsets. -/
theorem card_coords (L : ℕ) :
    ∀ w : ℕ, 2 ^ L ≤ w →
      ((Finset.range w).filter (fun r => is_coord L w r = true)).card = 2 ^ L := by
  induction L with
  | zero =>
    intro w hw
    norm_num at hw
    have : (Finset.range w).filter (fun r => is_coord 0 w r = true) = {0} := by
      ext r
      simp only [Finset.mem_filter, Finset.mem_range, is_coord, beq_iff_eq,
        Finset.mem_singleton]
      omega
    rw [this]
    rfl
  | succ L ih =>
    intro w hw
    have e1 : 2 ^ (L + 1) = 2 * 2 ^ L := by rw [pow_succ]; ring
    have hm : 2 ^ L ≤ w / 2 := by omega
    have hset : (Finset.range w).filter (fun r => is_coord (L + 1) w r = true)
        = (Finset.range (w / 2)).filter (fun r => is_coord L (w / 2) r = true) ∪
          ((Finset.range (w / 2)).filter (fun r => is_coord L (w / 2) r = true)).image
            (fun a => a + w / 2) := by
      ext r
      simp only [Finset.mem_filter, Finset.mem_range, Finset.mem_union, Finset.mem_image]
      constructor
      · rintro ⟨_, h2⟩
        rcases is_coord_succ_cases L w r h2 with ⟨a1, a2⟩ | ⟨a1, a2⟩
        · exact Or.inl ⟨a1, a2⟩
        · exact Or.inr ⟨r - w / 2, ⟨is_coord_lt L _ _ hm a2, a2⟩, by omega⟩
      · rintro (⟨a1, a2⟩ | ⟨a, ⟨a1, a2⟩, rfl⟩)
        · exact ⟨by omega, is_coord_succ_lo L w r hm a2⟩
        · exact ⟨by omega, is_coord_succ_hi L w a a2⟩
    have hdis : Disjoint ((Finset.range (w / 2)).filter (fun r => is_coord L (w / 2) r = true))
        (((Finset.range (w / 2)).filter (fun r => is_coord L (w / 2) r = true)).image
          (fun a => a + w / 2)) := by
      rw [Finset.disjoint_left]
      intro r h1 h2
      simp only [Finset.mem_filter, Finset.mem_range, Finset.mem_image] at h1 h2
      obtain ⟨a, _, rfl⟩ := h2
      omega
    rw [hset, Finset.card_union_of_disjoint hdis,
      Finset.card_image_of_injective _ (fun a b h => by simpa using h), ih (w / 2) hm, e1]
    ring

/-- The function `QuadToMatrix` on the tree built from a square of any side
`n`: the cells reached by the halvings hold the pixel of the same position of
the input, the other cells are left unwritten. -/
theorem QuadToMatrix_gen (L n fuel : ℕ) (f : ℕ → ℕ → png_pixel) (h1 : 2 ^ L ≤ n)
    (h2 : n < 2 ^ (L + 1)) (hfuel : L < fuel) :
    ∃ out, QuadToMatrix fuel ⟨(build_gen L n f).toNode⟩ n n
        = .ok (out, ⟨(build_gen L n f).toNode⟩) ∧
      mat_shape out = List.replicate n (some n) ∧
      ∀ r c, r < n → c < n → mat_cell out r c
        = if is_coord L n r = true ∧ is_coord L n c = true then some (some (f r c))
          else some none := by
  obtain ⟨mat, hm, hs, hc⟩ := image_alloc_square n
  have ha : allocated mat 0 0 n := by
    intro r c _ k2 _ k4
    rw [hc r c (by omega) (by omega)]; rfl
  obtain ⟨out1, hr, hp⟩ := RecNodeToMat_gen L n fuel f mat 0 0 h1 h2 hfuel ha
  refine ⟨out1, ?_, by rw [hp.1, hs], ?_⟩
  · simp only [QuadToMatrix, hm, hr]
  · intro r c hr1 hc1
    rw [hp.2 r c, hc r c hr1 hc1]
    simp

theorem written_cells_card (L n : ℕ) (f : ℕ → ℕ → png_pixel) (out : pixel_mat)
    (h1 : 2 ^ L ≤ n)
    (hc : ∀ r c, r < n → c < n → mat_cell out r c
      = if is_coord L n r = true ∧ is_coord L n c = true then some (some (f r c))
        else some none) :
    (written_cells n out).card = 4 ^ L := by
  have hset : written_cells n out
      = ((Finset.range n).filter (fun r => is_coord L n r = true)) ×ˢ
        ((Finset.range n).filter (fun r => is_coord L n r = true)) := by
    rw [← Finset.filter_product]
    unfold written_cells
    apply Finset.filter_congr
    rintro ⟨r, c⟩ hrc
    simp only [Finset.mem_product, Finset.mem_range] at hrc
    simp only [cell_written, hc r c hrc.1 hrc.2]
    by_cases h : is_coord L n r = true ∧ is_coord L n c = true
    · simp [h]
    · rw [if_neg h]
      simp [h]
  rw [hset, Finset.card_product, card_coords L n h1]
  have : (4 : ℕ) ^ L = (2 * 2) ^ L := by norm_num
  rw [this, mul_pow]

/-- C20: square grids whose side is not a power of two are accepted silently
and rendered incompletely.  For every `n >= 1` and every `n x n` grid,
`RecMatToNode` returns, without printing the warning, a perfect quadtree of
depth `floor (log2 n)` with `4 ^ floor (log2 n)` leaves.  `QuadToMatrix` with
`width = height = n` on that tree returns and leaves the tree as it is; it
writes exactly the cells whose row and column offsets are reached by the
halvings (each with the input pixel of the same position), which are
`4 ^ floor (log2 n)` cells, and leaves every other cell unwritten; when `n` is
not a power of two this is less than `n * n`. -/
theorem C20_square_of_any_side (n : ℕ) (g : pixel_mat) (fuel : ℕ) (hn : 1 ≤ n)
    (hg : is_grid n n g = true) (hfuel : Nat.log 2 n < fuel) :
    ∃ (Q : QTree) (out : pixel_mat),
      RecMatToNode fuel g n n = .ok (Q.toNode, 0) ∧
      Q.perfect (Nat.log 2 n) = true ∧ Q.toNode.depth = Nat.log 2 n ∧
      Q.toNode.leaves = 4 ^ Nat.log 2 n ∧
      QuadToMatrix fuel ⟨Q.toNode⟩ n n = .ok (out, ⟨Q.toNode⟩) ∧
      (∀ r c, r < n → c < n → mat_cell out r c
        = if is_coord (Nat.log 2 n) n r = true ∧ is_coord (Nat.log 2 n) n c = true then
            some (some (mat_px g r c))
          else some none) ∧
      (written_cells n out).card = 4 ^ Nat.log 2 n ∧
      ((∀ j, n ≠ 2 ^ j) → 4 ^ Nat.log 2 n < n * n) := by
  have h1 : 2 ^ Nat.log 2 n ≤ n := Nat.pow_log_le_self 2 (by omega)
  have h2 : n < 2 ^ (Nat.log 2 n + 1) := Nat.lt_pow_succ_log_self (by norm_num) n
  have hspec := is_grid_spec n n g hg
  have hb := RecMatToNode_gen (Nat.log 2 n) n fuel g (mat_px g) h1 h2 hfuel hspec.2
  obtain ⟨out, hq, _, hc⟩ := QuadToMatrix_gen (Nat.log 2 n) n fuel (mat_px g) h1 h2 hfuel
  refine ⟨build_gen (Nat.log 2 n) n (mat_px g), out, hb, build_gen_perfect _ _ _, ?_, ?_, hq, hc,
    written_cells_card (Nat.log 2 n) n (mat_px g) out h1 hc, ?_⟩
  · rw [toNode_depth, build_gen_depth]
  · rw [toNode_leaves, build_gen_leaves]
  · intro hne
    have hlt : 2 ^ Nat.log 2 n < n := lt_of_le_of_ne h1 (fun e => hne _ e.symm)
    have : (4 : ℕ) ^ Nat.log 2 n = 2 ^ Nat.log 2 n * 2 ^ Nat.log 2 n := by
      rw [← mul_pow]
      norm_num
    rw [this]
    exact Nat.mul_lt_mul'' hlt hlt

theorem log_two_three : Nat.log 2 3 = 1 := by
  rw [Nat.log_eq_iff (by norm_num)]
  norm_num

/-- Witness of C20: a 3x3 grid.  The tree has depth 1 and 4 leaves, 4 of the 9
cells are written, and every cell in row 2 or column 2 is left unwritten. -/
theorem C20_square_of_any_side_witness :
    ∃ (Q : QTree) (out : pixel_mat),
      RecMatToNode 2 example_grid_3x3 3 3 = .ok (Q.toNode, 0) ∧
      Q.perfect 1 = true ∧ Q.toNode.depth = 1 ∧ Q.toNode.leaves = 4 ∧
      QuadToMatrix 2 ⟨Q.toNode⟩ 3 3 = .ok (out, ⟨Q.toNode⟩) ∧
      (written_cells 3 out).card = 4 ∧
      (∀ r c, r < 3 → c < 3 → (r = 2 ∨ c = 2) → mat_cell out r c = some none) ∧
      (∀ r c, r < 2 → c < 2 →
        mat_cell out r c = some (some (mat_px example_grid_3x3 r c))) := by
  obtain ⟨Q, out, h1, h2, h3, h4, h5, h6, h7, _⟩ :=
    C20_square_of_any_side 3 example_grid_3x3 2 (by norm_num) (is_grid_grid_of 3 3 _)
      (by rw [log_two_three]; norm_num)
  rw [log_two_three] at h2 h3 h4 h6 h7
  refine ⟨Q, out, h1, h2, h3, by simpa using h4, h5, by simpa using h7, ?_, ?_⟩
  · intro r c hr hc hrc
    rw [h6 r c hr hc, if_neg]
    rintro ⟨a1, a2⟩
    rcases hrc with rfl | rfl
    · simp [is_coord] at a1
    · simp [is_coord] at a2
  · intro r c hr hc
    rw [h6 r c (by omega) (by omega), if_pos]
    have hr' : r = 0 ∨ r = 1 := by omega
    have hc' : c = 0 ∨ c = 1 := by omega
    rcases hr' with rfl | rfl <;> rcases hc' with rfl | rfl <;> simp [is_coord]

end QtComp
